import Mathlib

/-! Verification of the fx-report deterministic pipeline.

Shallow embedding of the Python source (`app.py`, `modules/*.py` and the
large revision file).  Python strings are modelled as `List Char`,
pandas/numpy series as `List ℚ`, and NaN as `Option`.  Each embedded
definition carries the name of the source function it translates. -/

/-- Python `str` modelled as a list of unicode code points. -/
abbrev PyStr := List Char

/-- Python whitespace (`str.strip`, regex `\s`) restricted to the characters
that occur in this code base: ASCII whitespace and the ideographic space
U+3000. -/
def isPySpace (c : Char) : Bool :=
  c == ' ' || c == '\t' || c == '\n' || c == '\r' ||
  c == Char.ofNat 11 || c == Char.ofNat 12 || c == Char.ofNat 0x3000

/-- Drop trailing characters satisfying `p` (right-hand part of `str.strip`). -/
def dropTrailing (p : Char → Bool) (s : PyStr) : PyStr :=
  (s.reverse.dropWhile p).reverse

/-- Python `str.strip()`. -/
def pyStrip (s : PyStr) : PyStr :=
  dropTrailing isPySpace (s.dropWhile isPySpace)

/-- Python `s.endswith(suf)`. -/
def pyEndsWith (s suf : PyStr) : Bool := decide (suf <:+ s)

/-- Python `sub in s` (substring containment). -/
def pyHasSub (s sub : PyStr) : Bool := decide (sub <:+: s)

/-- pandas `s.rolling(n, min_periods=minp).mean()`.  Index `i` looks at the
window of the up to `n` samples ending at `i`; the entry is NaN (`none`)
exactly when fewer than `minp` samples are available. -/
def rollingMean (n minp : ℕ) (s : List ℚ) : List (Option ℚ) :=
  (List.range s.length).map (fun i =>
    let w := (s.take (i + 1)).drop (i + 1 - n)
    if minp ≤ w.length then some (w.sum / (w.length : ℚ)) else none)

/-- Source `_sma_v21(s, n) = s.rolling(n, min_periods=1).mean()`. -/
def _sma_v21 (s : List ℚ) (n : ℕ) : List (Option ℚ) :=
  rollingMean n 1 s

/-- Wilder / EWM recursion `y ← (1-a)·y + a·x` (pandas
`ewm(alpha=a, adjust=False)` after the seed value). -/
def wilderScan (a : ℚ) : ℚ → List ℚ → List ℚ
  | _, [] => []
  | prev, x :: t =>
    ((1 - a) * prev + a * x) :: wilderScan a ((1 - a) * prev + a * x) t

/-- pandas `ewm(alpha=a, adjust=False).mean()` on an all-finite series:
seeded from the first value, then the Wilder recursion. -/
def ewmAdjustFalse (a : ℚ) : List ℚ → List ℚ
  | [] => []
  | x :: t => x :: wilderScan a x t

/-- Source `_rsi_v21(close, n)`:
`d = close.diff(); up = d.clip(lower=0); dn = (-d).clip(lower=0);`
`ema_up/ema_dn = ewm(alpha=1/n, adjust=False).mean();`
`rs = ema_up / ema_dn.replace(0, nan); (100 - 100/(1+rs)).clip(0, 100)`.
The leading `none` is the NaN produced by `diff()` at index 0 and
propagated through the pipeline; `none` also appears where `ema_dn = 0`
(division by the NaN introduced by `replace`). -/
def _rsi_v21 (n : ℕ) (close : List ℚ) : List (Option ℚ) :=
  match close with
  | [] => []
  | _ :: _ =>
    let d := (close.zip close.tail).map (fun p => p.2 - p.1)
    let up := d.map (fun x => max x 0)
    let dn := d.map (fun x => max (-x) 0)
    let eu := ewmAdjustFalse (1 / (n : ℚ)) up
    let ed := ewmAdjustFalse (1 / (n : ℚ)) dn
    none :: (eu.zip ed).map (fun p =>
      if p.2 = 0 then none
      else some (min (max (100 - 100 / (1 + p.1 / p.2)) 0) 100))

/-- One OHLC bar; the timestamp is whole hours on an integer timeline. -/
structure Bar where
  ts : ℤ
  op : ℚ
  hi : ℚ
  lo : ℚ
  cl : ℚ
  deriving DecidableEq, Repr, Inhabited

/-- `df.index = df.index + d` (shift every timestamp by `d` hours). -/
def shiftIdx (d : ℤ) (bars : List Bar) : List Bar :=
  bars.map (fun b => { b with ts := b.ts + d })

/-- First element (`resample(...).first()` on a non-empty group). -/
def headQ (l : List ℚ) : ℚ := l.headD 0

/-- Last element (`resample(...).last()` on a non-empty group). -/
def lastQ (l : List ℚ) : ℚ := l.getLastD 0

/-- Maximum of a non-empty list (`resample(...).max()`). -/
def maxQ : List ℚ → ℚ
  | [] => 0
  | [x] => x
  | x :: y :: t => max x (maxQ (y :: t))

/-- Minimum of a non-empty list (`resample(...).min()`). -/
def minQ : List ℚ → ℚ
  | [] => 0
  | [x] => x
  | x :: y :: t => min x (minQ (y :: t))

/-- pandas `resample("1D")` with `first/max/min/last` aggregation followed by
`dropna(how="any")`: one output bar per calendar day (`ts.fdiv 24`) that has
at least one input bar, labelled with the day's midnight. -/
def resample1D (bars : List Bar) : List Bar :=
  ((bars.map (fun b => b.ts.fdiv 24)).dedup).map (fun k =>
    let g := bars.filter (fun b => decide (b.ts.fdiv 24 = k))
    { ts := 24 * k
      op := headQ (g.map Bar.op)
      hi := maxQ (g.map Bar.hi)
      lo := minQ (g.map Bar.lo)
      cl := lastQ (g.map Bar.cl) })

/-- Source `_dl_ohlc_v21`, `interval == "1d"` branch: shift the (NY-local)
index back 17 hours, resample by calendar day, shift the labels forward
17 hours. -/
def _dl_ohlc_v21_1d (bars : List Bar) : List Bar :=
  shiftIdx 17 (resample1D (shiftIdx (-17) bars))

/-- Daily aggregation as the spec words it: the day boundary is the
17:00-New-York rollover, i.e. bars are grouped by the key
`⌊(ts − 17)/24⌋` and each group is labelled with its 17:00 boundary.
Second definition kept separate from `_dl_ohlc_v21_1d` on purpose: the
claim is that the code's shift/group/unshift pipeline equals this. -/
def fxDaily17 (bars : List Bar) : List Bar :=
  ((bars.map (fun b => (b.ts - 17).fdiv 24)).dedup).map (fun k =>
    let g := bars.filter (fun b => decide ((b.ts - 17).fdiv 24 = k))
    { ts := 24 * k + 17
      op := headQ (g.map Bar.op)
      hi := maxQ (g.map Bar.hi)
      lo := minQ (g.map Bar.lo)
      cl := lastQ (g.map Bar.cl) })

/-- One row of the calendar DataFrame fed to `reduce_events_for_body`.
Field names romanise the source columns: `jikoku` = 時刻 (time string),
`shihyo` = 指標 (event name), `chiiki` = 地域 (region code), `category` =
カテゴリ, `score` = スコア, `hh`/`mm` = the helper columns `H`/`M`,
`scoreP` = the boosted column スコア+. -/
structure EvRow where
  jikoku : PyStr
  shihyo : PyStr
  chiiki : PyStr
  category : PyStr
  score : ℤ
  hh : ℕ
  mm : ℕ
  scoreP : ℤ
  deriving DecidableEq, Repr, Inhabited

/-- `sort_values(["スコア", "H", "M"], ascending=[False, True, True])`:
`a` may precede `b` iff score is strictly larger, or equal score and
lexicographically smaller `(H, M)`. -/
def leScoreHM (a b : EvRow) : Prop :=
  b.score < a.score ∨
    (a.score = b.score ∧ (a.hh < b.hh ∨ (a.hh = b.hh ∧ a.mm ≤ b.mm)))

instance : DecidableRel leScoreHM := fun a b => by
  unfold leScoreHM; infer_instance

instance : IsTotal EvRow leScoreHM := by
  constructor
  intro a b
  unfold leScoreHM
  omega

instance : IsTrans EvRow leScoreHM := by
  constructor
  intro a b c hab hbc
  unfold leScoreHM at *
  omega

/-- Code-point lexicographic order on strings (pandas string sort key).
Only used as a sort key; no order lemmas are needed about it. -/
def textLe : PyStr → PyStr → Bool
  | [], _ => true
  | _ :: _, [] => false
  | a :: s, b :: t => if a = b then textLe s t else decide (a < b)

/-- `sort_values(["スコア+", "H", "M", "指標"], ascending=[False, True, True, True])`. -/
def leFinal (a b : EvRow) : Prop :=
  b.scoreP < a.scoreP ∨
    (a.scoreP = b.scoreP ∧
      (a.hh < b.hh ∨ (a.hh = b.hh ∧
        (a.mm < b.mm ∨ (a.mm = b.mm ∧ textLe a.shihyo b.shihyo = true)))))

instance : DecidableRel leFinal := fun a b => by
  unfold leFinal; infer_instance

/-- Dedup key of collapse step 1: `subset = ["時刻", "地域", "カテゴリ", "指標"]`. -/
def key4 (e : EvRow) : PyStr × PyStr × PyStr × PyStr :=
  (e.jikoku, e.chiiki, e.category, e.shihyo)

/-- Dedup key of collapse step 2: `subset = ["時刻", "地域", "カテゴリ"]`. -/
def key3 (e : EvRow) : PyStr × PyStr × PyStr :=
  (e.jikoku, e.chiiki, e.category)

/-- pandas `drop_duplicates(subset=…, keep="first")`, scanning with the set
of already-seen keys: keep a row iff its key has not appeared before. -/
def dedupSeen {α κ : Type} [DecidableEq κ] (f : α → κ) : List κ → List α → List α
  | _, [] => []
  | seen, x :: t =>
    if f x ∈ seen then dedupSeen f seen t
    else x :: dedupSeen f (f x :: seen) t

/-- `drop_duplicates(subset=…, keep="first")` itself (no keys seen yet). -/
def dedupKeepFirst {α κ : Type} [DecidableEq κ] (f : α → κ) (l : List α) : List α :=
  dedupSeen f [] l

/-- The speech regex `講演|発言|会見|総裁|議長|speech`. -/
def speechPats : List PyStr :=
  ["講演".data, "発言".data, "会見".data, "総裁".data, "議長".data, "speech".data]

/-- The high-rank regex `FRB|パウエル|日銀|植田|BOJ|FOMC|ECB|ラガルド`. -/
def highRankPats : List PyStr :=
  ["FRB".data, "パウエル".data, "日銀".data, "植田".data, "BOJ".data,
   "FOMC".data, "ECB".data, "ラガルド".data]

/-- `str.contains(p1|p2|…)`: some alternative occurs as a substring. -/
def containsAny (s : PyStr) (pats : List PyStr) : Bool :=
  pats.any (fun p => pyHasSub s p)

/-- Steps 2 and 3 of `reduce_events_for_body`: `スコア+` = `スコア`
plus the JP boost (+2) plus the US boost (+1) minus the speech penalty
(−1 unless a high-rank name also occurs). -/
def applyBoosts (e : EvRow) : EvRow :=
  { e with
    scoreP := e.score
      + (if e.chiiki = "JP".data then 2 else 0)
      + (if e.chiiki = "US".data then 1 else 0)
      - (if containsAny e.shihyo speechPats && !containsAny e.shihyo highRankPats
          then 1 else 0) }

/-- Source `reduce_events_for_body(df_in, max_items)`: sort by
(score desc, H, M), collapse on (time, region, category, name), collapse
on (time, region, category), boost JP/US, penalise plain speeches, final
sort by (boosted score desc, H, M, name), truncate. -/
def reduce_events_for_body (d : List EvRow) (maxItems : ℕ) : List EvRow :=
  if d = [] then d
  else
    let d1 := List.insertionSort leScoreHM d
    let d2 := dedupKeepFirst key4 d1
    let d3 := dedupKeepFirst key3 d2
    let d4 := d3.map applyBoosts
    let d5 := List.insertionSort leFinal d4
    d5.take maxItems

/-- One raw provider record as seen by `_fetch_events_tradingeconomics`:
the `Event`/`Country`/`Category` fields plus the result of parsing the
`Date` field to a JST hour/minute (`none` = missing or unparseable). -/
structure RawItem where
  event : PyStr
  country : PyStr
  category : PyStr
  timeParsed : Option (ℕ × ℕ)
  deriving DecidableEq, Repr, Inhabited

/-- One normalised calendar row `{時刻, 指標, 地域, カテゴリ}`. -/
structure CalRow where
  jikoku : PyStr
  shihyo : PyStr
  chiiki : PyStr
  category : PyStr
  deriving DecidableEq, Repr, Inhabited

/-- Decimal digits of a natural number (used for `f"{j.hour}"`). -/
def natStr (n : ℕ) : PyStr := Nat.toDigits 10 n

/-- `f"{j.hour}:{j.minute:02d}"`. -/
def fmtHM (h m : ℕ) : PyStr :=
  natStr h ++ ':' :: (if m < 10 then '0' :: natStr m else natStr m)

/-- The unknown-time marker `'--:--'`. -/
def dashTime : PyStr := "--:--".data

/-- 2^32, the word modulus of MD5. -/
def M32 : ℕ := 4294967296

/-- 32-bit left rotation (inputs below `M32`). -/
def rotl32 (x s : ℕ) : ℕ := (x <<< s + x >>> (32 - s)) % M32

/-- 32-bit complement. -/
def notW (x : ℕ) : ℕ := x ^^^ 4294967295

/-- The MD5 sine table `T[i] = ⌊2^32·|sin(i+1)|⌋`. -/
def md5K : List ℕ :=
  [3614090360, 3905402710, 606105819, 3250441966, 4118548399, 1200080426,
   2821735955, 4249261313, 1770035416, 2336552879, 4294925233, 2304563134,
   1804603682, 4254626195, 2792965006, 1236535329, 4129170786, 3225465664,
   643717713, 3921069994, 3593408605, 38016083, 3634488961, 3889429448,
   568446438, 3275163606, 4107603335, 1163531501, 2850285829, 4243563512,
   1735328473, 2368359562, 4294588738, 2272392833, 1839030562, 4259657740,
   2763975236, 1272893353, 4139469664, 3200236656, 681279174, 3936430074,
   3572445317, 76029189, 3654602809, 3873151461, 530742520, 3299628645,
   4096336452, 1126891415, 2878612391, 4237533241, 1700485571, 2399980690,
   4293915773, 2240044497, 1873313359, 4264355552, 2734768916, 1309151649,
   4149444226, 3174756917, 718787259, 3951481745]

/-- The MD5 per-step rotation amounts. -/
def md5S : List ℕ :=
  [7, 12, 17, 22, 7, 12, 17, 22, 7, 12, 17, 22, 7, 12, 17, 22,
   5, 9, 14, 20, 5, 9, 14, 20, 5, 9, 14, 20, 5, 9, 14, 20,
   4, 11, 16, 23, 4, 11, 16, 23, 4, 11, 16, 23, 4, 11, 16, 23,
   6, 10, 15, 21, 6, 10, 15, 21, 6, 10, 15, 21, 6, 10, 15, 21]

/-- The four MD5 round functions, selected by the step index. -/
def md5F (i b c d : ℕ) : ℕ :=
  if i < 16 then b &&& c ||| notW b &&& d
  else if i < 32 then d &&& b ||| notW d &&& c
  else if i < 48 then b ^^^ c ^^^ d
  else c ^^^ (b ||| notW d)

/-- The MD5 message-word schedule. -/
def md5G (i : ℕ) : ℕ :=
  if i < 16 then i
  else if i < 32 then (5 * i + 1) % 16
  else if i < 48 then (3 * i + 5) % 16
  else (7 * i) % 16

/-- One of the 64 MD5 steps on the state `(a, b, c, d)`. -/
def md5Step (w : List ℕ) (st : ℕ × ℕ × ℕ × ℕ) (i : ℕ) : ℕ × ℕ × ℕ × ℕ :=
  let f := (md5F i st.2.1 st.2.2.1 st.2.2.2 + st.1
    + md5K.getD i 0 + w.getD (md5G i) 0) % M32
  (st.2.2.2, (st.2.1 + rotl32 f (md5S.getD i 0)) % M32, st.2.1, st.2.2.1)

/-- One 512-bit MD5 block: 64 steps, then add the incoming state. -/
def md5Block (st : ℕ × ℕ × ℕ × ℕ) (w : List ℕ) : ℕ × ℕ × ℕ × ℕ :=
  let r := (List.range 64).foldl (md5Step w) st
  ((st.1 + r.1) % M32, (st.2.1 + r.2.1) % M32,
   (st.2.2.1 + r.2.2.1) % M32, (st.2.2.2 + r.2.2.2) % M32)

/-- Split a list into chunks of `n` elements (last one possibly shorter). -/
def chunkGo {α : Type} (n : ℕ) : ℕ → List α → List (List α)
  | 0, _ => []
  | _, [] => []
  | fuel + 1, x :: t =>
    if n = 0 then [] else (x :: t).take n :: chunkGo n fuel ((x :: t).drop n)

/-- Split a list into chunks of `n` elements (last one possibly shorter);
the fuel `l.length` is always enough. -/
def chunkList {α : Type} (n : ℕ) (l : List α) : List (List α) :=
  chunkGo n l.length l

/-- Little-endian word from (up to) four bytes. -/
def leWord (bs : List ℕ) : ℕ :=
  bs.reverse.foldl (fun acc b => acc * 256 + b) 0

/-- Little-endian byte serialisation of a 32-bit word. -/
def leBytes4 (x : ℕ) : List ℕ :=
  [x % 256, x >>> 8 % 256, x >>> 16 % 256, x >>> 24 % 256]

/-- MD5 padding: `0x80`, zeros to 56 mod 64, then the bit length as a
little-endian 64-bit number. -/
def md5Pad (msg : List ℕ) : List ℕ :=
  let z := (120 - (msg.length + 1) % 64) % 64
  msg ++ 128 :: List.replicate z 0
    ++ (List.range 8).map (fun i => msg.length * 8 >>> (8 * i) % 256)

/-- The MD5 initial state. -/
def md5Init : ℕ × ℕ × ℕ × ℕ := (1732584193, 4023233417, 2562383102, 271733878)

/-- The 16-byte MD5 digest of a byte string. -/
def md5Digest (msg : List ℕ) : List ℕ :=
  let r := ((chunkList 64 (md5Pad msg)).map (fun blk =>
    (chunkList 4 blk).map leWord)).foldl md5Block md5Init
  leBytes4 r.1 ++ leBytes4 r.2.1 ++ leBytes4 r.2.2.1 ++ leBytes4 r.2.2.2

/-- Python `int(hashlib.md5(bs).hexdigest(), 16)`: the digest bytes read as
one big-endian integer. -/
def md5HexInt (msg : List ℕ) : ℕ :=
  (md5Digest msg).foldl (fun acc b => acc * 256 + b) 0

/-- UTF-8 bytes of one character. -/
def utf8Char (c : Char) : List ℕ :=
  let v := c.toNat
  if v < 128 then [v]
  else if v < 2048 then [192 + v / 64, 128 + v % 64]
  else if v < 65536 then [224 + v / 4096, 128 + v / 64 % 64, 128 + v % 64]
  else [240 + v / 262144, 128 + v / 4096 % 64, 128 + v / 64 % 64, 128 + v % 64]

/-- Python `s.encode("utf-8")`. -/
def utf8Encode (s : PyStr) : List ℕ := (s.map utf8Char).flatten

/-- Source `_stable_pick(cands, category)`: hash the seed string
`f"{pair}|{asof}|{category}"` with MD5, read the hex digest as an integer
and index the candidate list modulo its length; `""` for an empty list.
`pair` and `asof` are the subject and date keys read from the session. -/
def _stable_pick (pair asof category : PyStr) (cands : List PyStr) : PyStr :=
  let seed := pair ++ '|' :: asof ++ '|' :: category
  let h := md5HexInt (utf8Encode seed)
  if cands = [] then [] else cands.getD (h % cands.length) []

/-- The row loop of `_fetch_events_tradingeconomics`, parameterised by the
region canonicaliser `CANON_map_country_to_region`: format the parsed
JST time (empty when unparseable), skip records with a blank name,
replace a blank time by `'--:--'` and keep the record. -/
def fetchEventRows (canon : PyStr → PyStr) (items : List RawItem) : List CalRow :=
  items.filterMap (fun it =>
    let indicator := pyStrip it.event
    let hhmm : PyStr := match it.timeParsed with
      | some p => fmtHM p.1 p.2
      | none => []
    if indicator = [] then none
    else some
      { jikoku := if hhmm = [] then dashTime else hhmm
        shihyo := indicator
        chiiki := canon (pyStrip it.country)
        category := it.category })

/-- The ideographic space U+3000 → ASCII space (first step of
`_clean_text_jp_safe`). -/
def zenkakuToSpace (s : PyStr) : PyStr :=
  s.map (fun c => if c == Char.ofNat 0x3000 then ' ' else c)

/-- The character class of `[ \t]`. -/
def isBlankTab (c : Char) : Bool := c == ' ' || c == '\t'

/-- Scan for `collapseBlanks`; the flag says whether we are inside a
blank/tab run whose single space has already been emitted. -/
def collapseGo : Bool → PyStr → PyStr
  | _, [] => []
  | inRun, c :: t =>
    if isBlankTab c then
      if inRun then collapseGo true t else ' ' :: collapseGo true t
    else c :: collapseGo false t

/-- regex `[ \t]+` → `" "`: collapse every blank/tab run to one space. -/
def collapseBlanks (s : PyStr) : PyStr := collapseGo false s

/-- The Japanese punctuation class `[、。]`. -/
def isPunct (c : Char) : Bool := c == '、' || c == '。'

/-- Helper for `rmWsBeforePunct`, working on the reversed string: drop the
whitespace run sitting right after (i.e. originally before) each `、`/`。`.
The flag says whether we are still inside the whitespace run that follows
a punctuation mark. -/
def rmWsAux : Bool → PyStr → PyStr
  | _, [] => []
  | ap, c :: t =>
    if ap && isPySpace c then rmWsAux ap t
    else c :: rmWsAux (isPunct c) t

/-- regex `\s+([、。])` → `\1`: remove whitespace before 、 and 。. -/
def rmWsBeforePunct (s : PyStr) : PyStr := (rmWsAux false s.reverse).reverse

/-- Python `s.endswith(("。", "！", "？"))`. -/
def endsSentence (s : PyStr) : Bool :=
  pyEndsWith s "。".data || pyEndsWith s "！".data || pyEndsWith s "？".data

/-- Source `_clean_text_jp_safe` (the fallback definition that is in scope
at `_pad_para2_base`): U+3000 → space, collapse blank runs, drop
whitespace before punctuation, strip, and close with `。` when the result
does not already end in a sentence mark. -/
def _clean_text_jp_safe (text : PyStr) : PyStr :=
  let s := pyStrip (rmWsBeforePunct (collapseBlanks (zenkakuToSpace text)))
  if s ≠ [] ∧ endsSentence s = false then s ++ "。".data else s

/-- The four neutral filler sentences of `_pad_para2_base`. -/
def fillers : List PyStr :=
  ["移動平均線周辺の反応を確かめつつ様子を見たい。".data,
   "節目水準の手前では反応がぶれやすい。".data,
   "指標通過後の方向性を見極めたい。".data,
   "短期は値動きの粗さに留意したい。".data]

/-- `L(x) = len(str(x).replace("\n", ""))` — character count without
newlines. -/
def lenNoNL (s : PyStr) : ℕ := (s.filter (fun c => c ≠ '\n')).length

/-- The normalisation prefix of `_pad_para2_base`:
`s = _clean_text_jp_safe(str(para2 or "").strip())` followed by
`if s and not s.endswith("。"): s += "。"`. -/
def padNormalize (para2 : PyStr) : PyStr :=
  let s := _clean_text_jp_safe (pyStrip para2)
  if s ≠ [] ∧ pyEndsWith s "。".data = false then s ++ "。".data else s

/-- Appending one filler inside the `_pad_para2_base` loop:
`if s and not s.endswith("。"): s += "。"` then `s += cand`. -/
def appendSent (s cand : PyStr) : PyStr :=
  (if s ≠ [] ∧ pyEndsWith s "。".data = false then s ++ "。".data else s) ++ cand

/-- The filler loop of `_pad_para2_base`: visit
`fillers[(start_idx + i) % 4]` for `i < 2·|fillers|` while the text is
still short, skipping any candidate already present (substring check) or
already used. -/
def padLoop (minChars startIdx : ℕ) : ℕ → ℕ → List PyStr → PyStr → PyStr
  | _, 0, _, s => s
  | i, fuel + 1, used, s =>
    if lenNoNL s < minChars ∧ i < fillers.length * 2 then
      let cand := fillers.getD ((startIdx + i) % fillers.length) []
      if pyHasSub s cand || used.contains cand then
        padLoop minChars startIdx (i + 1) fuel used s
      else
        padLoop minChars startIdx (i + 1) fuel (cand :: used) (appendSent s cand)
    else s

/-- Source `_pad_para2_base(para2, min_chars)` with the session-derived
start index (`md5(f"{pair}|{asof}|pad") % 4`) abstracted into `startIdx`. -/
def _pad_para2_base (startIdx minChars : ℕ) (para2 : PyStr) : PyStr :=
  let s := padNormalize para2
  if minChars ≤ lenNoNL s then s
  else _clean_text_jp_safe (padLoop minChars startIdx 0 (fillers.length * 2) [] s)

/-- Source `ALLOWED_PARA2_CLOSERS` (`app.py`). -/
def ALLOWED_PARA2_CLOSERS : List PyStr :=
  ["行方を注視したい。".data, "値動きには警戒したい。".data,
   "当面は静観としたい。".data, "一段の変動に要注意としたい。".data,
   "方向感を見極めたい。".data]

/-- Source `_ends_with_closer(s)`: some whitelist closer ends the text. -/
def _ends_with_closer (s : PyStr) : Bool :=
  ALLOWED_PARA2_CLOSERS.any (fun c => pyEndsWith s c)

/-- The fixed pad sentence of `pad_para2` (`app.py`). -/
def padAddon : PyStr :=
  "短期は20SMAやボリンジャーバンド周辺の反応を確かめつつ、過度な方向感は決めつけない構えとしたい。".data

/-- Source `pad_para2(para2, min_chars)` (`app.py`): strip; if already at
the minimum return the stripped text, otherwise append the fixed addon
(with a separating space if the text does not end in `。`). -/
def pad_para2 (para2 : PyStr) (minChars : ℕ) : PyStr :=
  let base := pyStrip para2
  if minChars ≤ base.length then base
  else (if base ≠ [] ∧ pyEndsWith base "。".data = false
        then base ++ " ".data else base) ++ padAddon

/-- The paragraph-2 finalisation in `app.py`:
`para2_final = pad_para2(para2, 180)` followed by appending the safe
closer `方向感を見極めたい。` when no whitelist closer ends the text. -/
def para2FinalStep (p2 : PyStr) : PyStr :=
  let p := pad_para2 p2 180
  if _ends_with_closer p then p
  else (if pyEndsWith p "。".data = false then p ++ " ".data else p)
    ++ "方向感を見極めたい。".data

/-- Source `_SUFFIX_TO_RECALL` (`modules/writer.py`), in insertion order. -/
def SUFFIX_TO_RECALL : List (PyStr × PyStr) :=
  [("注視か".data, "注視したい。".data),
   ("要注目か".data, "注目したい。".data),
   ("注目か".data, "注目したい。".data),
   ("警戒か".data, "警戒したい。".data),
   ("注意か".data, "注意したい。".data),
   ("要注意か".data, "要注意としたい。".data),
   ("静観か".data, "静観したい。".data),
   ("見極めたいところか".data, "見極めたい。".data),
   ("見定めたいところか".data, "見定めたい。".data)]

/-- The `for suf, recall in _SUFFIX_TO_RECALL.items()` scan: first mapped
suffix wins, the ending is replaced by the mapped recall ending. -/
def recallScan : List (PyStr × PyStr) → PyStr → Option PyStr
  | [], _ => none
  | (suf, rec) :: rest, t =>
    if pyEndsWith t suf then some (t.take (t.length - suf.length) ++ rec)
    else recallScan rest t

/-- Source `build_title_recall(title)` (`modules/writer.py`): mapped suffix
→ mapped recall ending; otherwise a bare `か` ending → default recall
ending; otherwise guarantee a terminal `。`. -/
def build_title_recall (title : PyStr) : PyStr :=
  let t := pyStrip title
  match recallScan SUFFIX_TO_RECALL t with
  | some r => r
  | none =>
    if pyEndsWith t "か".data then t.take (t.length - 1) ++ "に注視したい。".data
    else if pyEndsWith t "。".data = false then t ++ "に注視したい。".data
    else t

/-- regex `\d` restricted to the decimal digits that occur here: ASCII and
fullwidth digits. -/
def isPyDigit (c : Char) : Bool :=
  decide (48 ≤ c.toNat ∧ c.toNat ≤ 57) ||
  decide (65296 ≤ c.toNat ∧ c.toNat ≤ 65305)

/-- regex `\w` (for the `\b` boundary) restricted to the character ranges
relevant here: ASCII alphanumerics, underscore, kana, CJK ideographs and
fullwidth alphanumerics. -/
def isWordChar (c : Char) : Bool :=
  isPyDigit c ||
  decide (65 ≤ c.toNat ∧ c.toNat ≤ 90) ||
  decide (97 ≤ c.toNat ∧ c.toNat ≤ 122) ||
  c == '_' ||
  decide (0x3040 ≤ c.toNat ∧ c.toNat ≤ 0x30FF) ||
  decide (0x4E00 ≤ c.toNat ∧ c.toNat ≤ 0x9FFF) ||
  decide (0xFF21 ≤ c.toNat ∧ c.toNat ≤ 0xFF3A) ||
  decide (0xFF41 ≤ c.toNat ∧ c.toNat ≤ 0xFF5A)

/-- `text.replace("％", "%")`. -/
def zenPercentToHalf (s : PyStr) : PyStr :=
  s.map (fun c => if c == '％' then '%' else c)

/-- regex `re.sub(r"\b0(\d):", r"\1:", ·)` as a left-to-right scan.  The
boolean argument records whether the previous character is a word
character (that is all `\b` needs here, since the pattern starts with the
word character `0`); scanning resumes after each replacement. -/
def sub2Go : Bool → PyStr → PyStr
  | _, [] => []
  | pw, '0' :: d :: ':' :: r2 =>
    if pw = false ∧ isPyDigit d then d :: ':' :: sub2Go false r2
    else '0' :: sub2Go (isWordChar '0') (d :: ':' :: r2)
  | _, c :: r => c :: sub2Go (isWordChar c) r

/-- The hour-zero-stripping substitution of `enforce_symbols`. -/
def sub2 (s : PyStr) : PyStr := sub2Go false s

/-- The verb alternation `上昇|低下|下落|上振れ|下振れ`, in order. -/
def verbAlts : List PyStr :=
  ["上昇".data, "低下".data, "下落".data, "上振れ".data, "下振れ".data]

/-- Try each verb alternative as a literal at the head of `t`. -/
def tryVerbs : List PyStr → PyStr → Option (PyStr × PyStr)
  | [], _ => none
  | v :: vs, t =>
    if decide (v <+: t) then some (v, t.drop v.length) else tryVerbs vs t

/-- The optional group `(?:\.\d+)?` after the integer digits: greedy, and a
lone `.` without digits does not match. -/
def fracTake (t : PyStr) : PyStr × PyStr :=
  match t with
  | '.' :: r =>
    let ds := r.takeWhile isPyDigit
    if ds = [] then ([], t) else ('.' :: ds, r.dropWhile isPyDigit)
  | _ => ([], t)

/-- Attempt of `(\d+(?:\.\d+)?)%ほど(上昇|低下|下落|上振れ|下振れ)` at the
head of `t`; on success returns the replacement `約\1%\2` and the rest. -/
def matchPctHodo (t : PyStr) : Option (PyStr × PyStr) :=
  let ds := t.takeWhile isPyDigit
  if ds = [] then none
  else
    let fr := fracTake (t.dropWhile isPyDigit)
    match fr.2 with
    | '%' :: 'ほ' :: 'ど' :: r3 =>
      match tryVerbs verbAlts r3 with
      | some vr => some ('約' :: ds ++ fr.1 ++ '%' :: vr.1, vr.2)
      | none => none
    | _ => none

/-- The scan of `re.sub(r"(\d+(?:\.\d+)?)%ほど(…)", r"約\1%\2", ·)`:
leftmost match, replace, resume after the match; fuelled by the input
length (the fuel never runs out, see `sub3Fuel_eq_of_le`). -/
def sub3Fuel : ℕ → PyStr → PyStr
  | 0, t => t
  | _ + 1, [] => []
  | k + 1, c :: r =>
    match matchPctHodo (c :: r) with
    | some pr => pr.1 ++ sub3Fuel k pr.2
    | none => c :: sub3Fuel k r

/-- The percent-phrase substitution of `enforce_symbols`. -/
def sub3 (s : PyStr) : PyStr := sub3Fuel s.length s

/-- Source `enforce_symbols(text)` (`modules/validator.py`): fullwidth ％
→ `%`, strip the leading hour zero, and insert `約` in
`\d+%ほど(上昇|…)` phrases (dropping the `ほど`). -/
def enforce_symbols (t : PyStr) : PyStr :=
  sub3 (sub2 (zenPercentToHalf t))

/-- Invariant shared by every string produced inside `_pad_para2_base`:
no ideographic space and no tab (removed by `_clean_text_jp_safe`), no two
adjacent ASCII spaces, no whitespace directly before `、`/`。`, and no
whitespace at either edge.  `_clean_text_jp_safe` establishes it and is
the identity on sentence-terminated strings satisfying it. -/
def CleanInv (s : PyStr) : Prop :=
  (∀ c ∈ s, c ≠ Char.ofNat 0x3000 ∧ c ≠ '\t') ∧
  s.Chain' (fun a b => ¬(a = ' ' ∧ b = ' ')) ∧
  s.Chain' (fun a b => ¬(isPySpace a = true ∧ isPunct b = true)) ∧
  s.head?.all (fun c => !isPySpace c) = true ∧
  s.getLast?.all (fun c => !isPySpace c) = true

/-- Adjacent-pair check used to decide `List.Chain'` facts about the
concrete filler strings. -/
def chainB (R : Char → Char → Bool) : PyStr → Bool
  | a :: b :: t => R a b && chainB R (b :: t)
  | _ => true

/-! Helper lemmas. -/

lemma getD_none_eq_some_mem {l : List (Option ℚ)} {i : ℕ} {q : ℚ}
    (h : l.getD i none = some q) : some q ∈ l := by
  induction l generalizing i with
  | nil => simp [List.getD] at h
  | cons a t ih =>
    cases i with
    | zero => simp [List.getD] at h; simp [h]
    | succ j =>
      simp only [List.getD_cons_succ] at h
      exact List.mem_cons_of_mem _ (ih h)

/-- C4: for any window `n` and any finite input price series, every defined
entry of the RSI output lies in the interval `[0, 100]`. -/
theorem rsi_within_0_100 (n : ℕ) (close : List ℚ) (i : ℕ) (q : ℚ)
    (h : (_rsi_v21 n close).getD i none = some q) : 0 ≤ q ∧ q ≤ 100 := by
  have hmem : some q ∈ _rsi_v21 n close := getD_none_eq_some_mem h
  rcases close with _ | ⟨c, rest⟩
  · simp [_rsi_v21] at hmem
  · simp only [_rsi_v21, List.mem_cons, List.mem_map] at hmem
    rcases hmem with h0 | ⟨p, _, hp⟩
    · exact absurd h0.symm (by simp)
    · by_cases hz : p.2 = 0
      · simp [hz] at hp
      · rw [if_neg hz] at hp
        have hq := Option.some.inj hp
        constructor
        · rw [← hq]
          exact le_min (le_max_right _ _) (by norm_num)
        · rw [← hq]
          exact min_le_right _ _

/-- Witness for C4 at `close = [1, 2, 1]`, `n = 14`: the first defined RSI
value is `650/7 ≈ 92.86`, inside `[0, 100]`. -/
theorem rsi_within_0_100_witness : 0 ≤ (650 / 7 : ℚ) ∧ (650 / 7 : ℚ) ≤ 100 :=
  rsi_within_0_100 14 [1, 2, 1] 2 (650 / 7) (by
    simp only [_rsi_v21, wilderScan, ewmAdjustFalse, List.zip, List.zipWith,
      List.map, List.tail]
    norm_num)

/-- C2: for every price series and every window `n ≥ 1`, the SMA output has
the same length as the input and every entry is defined; during warm-up the
entry is the mean of however many samples exist (the up to `n` most recent
samples). -/
theorem sma_total_and_warmup_mean (s : List ℚ) (n : ℕ) (hn : 1 ≤ n) :
    (_sma_v21 s n).length = s.length ∧
    ∀ i, i < s.length →
      (_sma_v21 s n).getD i none
        = some ((((s.take (i + 1)).reverse.take n).sum)
            / ((((s.take (i + 1)).reverse.take n).length : ℕ) : ℚ)) := by
  constructor
  · simp [_sma_v21, rollingMean]
  · intro i hi
    have hlt : (s.take (i + 1)).length = i + 1 := by
      rw [List.length_take]
      omega
    have hrev : (s.take (i + 1)).reverse.take n
        = ((s.take (i + 1)).drop (i + 1 - n)).reverse := by
      rw [List.take_reverse, hlt]
    have hwl : 1 ≤ ((s.take (i + 1)).drop (i + 1 - n)).length := by
      rw [List.length_drop, hlt]
      omega
    have hgd : (_sma_v21 s n).getD i none
        = ((List.range s.length).map (fun i =>
            let w := (s.take (i + 1)).drop (i + 1 - n)
            if 1 ≤ w.length then some (w.sum / (w.length : ℚ)) else none)).getD i none := rfl
    rw [hgd, List.getD_eq_getElem?_getD, List.getElem?_map, List.getElem?_range hi]
    rw [Option.map_some', Option.getD_some, if_pos hwl, hrev]
    simp [List.sum_reverse]

/-- Witness for C2 at `s = [2, 4]`, `n = 20`. -/
theorem sma_total_and_warmup_mean_witness : (_sma_v21 [2, 4] 20).length = 2 :=
  (sma_total_and_warmup_mean [2, 4] 20 (by decide)).1

/-- C3: the phrase selector is a pure function of
`(subjectKey, dateKey, category, candidates)` — two calls with identical
arguments agree — and on a non-empty candidate list it returns exactly
`candidates[md5(subjectKey|dateKey|category) mod |candidates|]`, hence
always a member of the supplied list. -/
theorem stable_pick_deterministic_and_member (pair asof category : PyStr)
    (cands : List PyStr) (h : cands ≠ []) :
    _stable_pick pair asof category cands = _stable_pick pair asof category cands ∧
    _stable_pick pair asof category cands ∈ cands ∧
    _stable_pick pair asof category cands
      = cands.getD (md5HexInt (utf8Encode (pair ++ '|' :: asof ++ '|' :: category))
          % cands.length) [] := by
  refine ⟨rfl, ?_, ?_⟩
  · unfold _stable_pick
    rw [if_neg h]
    have hlt : md5HexInt (utf8Encode (pair ++ '|' :: asof ++ '|' :: category))
        % cands.length < cands.length :=
      Nat.mod_lt _ (List.length_pos.mpr h)
    rw [List.getD_eq_getElem?_getD, List.getElem?_eq_getElem hlt]
    exact List.getElem_mem hlt
  · unfold _stable_pick
    rw [if_neg h]

set_option maxRecDepth 40000 in
/-- Witness for C3 on the two-candidate list with seed `a|b|intro`
(MD5 value ≡ 1 mod 2, so the second candidate is returned). -/
theorem stable_pick_witness :
    _stable_pick "a".data "b".data "intro".data ["x".data, "y".data]
      ∈ ["x".data, "y".data] ∧
    _stable_pick "a".data "b".data "intro".data ["x".data, "y".data] = "y".data :=
  ⟨(stable_pick_deterministic_and_member "a".data "b".data "intro".data
      ["x".data, "y".data] (by decide)).2.1, by decide⟩

/-- C6: the fetch loop drops a record only for a blank name, never for a
time-format failure: the output length equals the number of records with a
non-blank name, and every record with a non-blank name survives — with
time `'--:--'` whenever its time field was unparseable. -/
theorem fetch_retains_unparseable_times (canon : PyStr → PyStr) (items : List RawItem) :
    (fetchEventRows canon items).length
      = (items.filter (fun it => !(pyStrip it.event).isEmpty)).length ∧
    ∀ it ∈ items, pyStrip it.event ≠ [] →
      ∃ r ∈ fetchEventRows canon items,
        r.shihyo = pyStrip it.event ∧ (it.timeParsed = none → r.jikoku = dashTime) := by
  induction items with
  | nil => exact ⟨rfl, by simp⟩
  | cons it t ih =>
    by_cases hb : pyStrip it.event = []
    · have hf : fetchEventRows canon (it :: t) = fetchEventRows canon t := by
        simp only [fetchEventRows, List.filterMap_cons]
        rw [if_pos hb]
      constructor
      · rw [hf, ih.1]
        simp [List.filter_cons, hb]
      · intro x hx hxe
        rcases List.mem_cons.mp hx with rfl | hxt
        · exact absurd hb hxe
        · rw [hf]; exact ih.2 x hxt hxe
    · have hf : fetchEventRows canon (it :: t)
          = { jikoku := if (match it.timeParsed with
                | some p => fmtHM p.1 p.2
                | none => []) = [] then dashTime
              else (match it.timeParsed with
                | some p => fmtHM p.1 p.2
                | none => [])
              shihyo := pyStrip it.event
              chiiki := canon (pyStrip it.country)
              category := it.category } :: fetchEventRows canon t := by
        simp only [fetchEventRows, List.filterMap_cons]
        rw [if_neg hb]
      constructor
      · rw [hf]
        simp only [List.length_cons, ih.1, List.filter_cons]
        simp [hb]
      · intro x hx hxe
        rcases List.mem_cons.mp hx with rfl | hxt
        · refine ⟨_, by rw [hf]; exact List.mem_cons_self _ _, rfl, ?_⟩
          intro hnone
          simp [hnone]
        · obtain ⟨r, hr, hprop⟩ := ih.2 x hxt hxe
          exact ⟨r, by rw [hf]; exact List.mem_cons_of_mem _ hr, hprop⟩

/-- Witness for C6: a record named `' CPI '` whose time failed to parse is
kept, with time `'--:--'`. -/
theorem fetch_retains_witness :
    ∃ r ∈ fetchEventRows id
        [RawItem.mk " CPI ".data "US".data "inflation".data none],
      r.shihyo = pyStrip " CPI ".data ∧
      ((RawItem.mk " CPI ".data "US".data "inflation".data none).timeParsed = none
        → r.jikoku = dashTime) :=
  (fetch_retains_unparseable_times id
      [RawItem.mk " CPI ".data "US".data "inflation".data none]).2
    _ (List.mem_singleton.mpr rfl) (by decide)

lemma pyEndsWith_true {s suf : PyStr} (h : suf <:+ s) : pyEndsWith s suf = true :=
  decide_eq_true h

lemma recallScan_some {ps : List (PyStr × PyStr)} {t r : PyStr}
    (hps : ∀ p ∈ ps, p.2 ≠ [] ∧ "。".data <:+ p.2)
    (h : recallScan ps t = some r) : r ≠ [] ∧ "。".data <:+ r := by
  induction ps with
  | nil => simp [recallScan] at h
  | cons p rest ih =>
    rcases p with ⟨suf, rec⟩
    rw [recallScan] at h
    by_cases he : pyEndsWith t suf
    · rw [if_pos he] at h
      obtain ⟨h1, h2⟩ := hps (suf, rec) (List.mem_cons_self _ _)
      cases h
      constructor
      · simp [h1]
      · exact h2.trans (List.suffix_append _ _)
    · rw [if_neg he] at h
      exact ih (fun p hp => hps p (List.mem_cons_of_mem _ hp)) h

/-- C9: for every input title, `build_title_recall` returns a non-empty
string ending in the full stop `。` — via the mapped recall ending, the
`か` fallback, or the appended terminal full stop. -/
theorem build_title_recall_nonempty_ends_maru (title : PyStr) :
    build_title_recall title ≠ [] ∧
    pyEndsWith (build_title_recall title) "。".data = true := by
  cases hscan : recallScan SUFFIX_TO_RECALL (pyStrip title) with
  | some r =>
    obtain ⟨h1, h2⟩ := recallScan_some (by decide) hscan
    simp only [build_title_recall, hscan]
    exact ⟨h1, pyEndsWith_true h2⟩
  | none =>
    simp only [build_title_recall, hscan]
    by_cases hka : pyEndsWith (pyStrip title) "か".data = true
    · rw [if_pos hka]
      refine ⟨by simp, ?_⟩
      exact pyEndsWith_true
        ((show "。".data <:+ "に注視したい。".data by decide).trans (List.suffix_append _ _))
    · rw [if_neg hka]
      by_cases hmaru : pyEndsWith (pyStrip title) "。".data = true
      · rw [if_neg (show ¬(pyEndsWith (pyStrip title) "。".data = false) by
          rw [hmaru]; exact fun hc => Bool.noConfusion hc)]
        refine ⟨?_, hmaru⟩
        have := of_decide_eq_true hmaru
        rcases this with ⟨pre, hpre⟩
        intro hnil
        rw [hnil] at hpre
        simp at hpre
      · have hm2 : pyEndsWith (pyStrip title) "。".data = false := by
          cases h2 : pyEndsWith (pyStrip title) "。".data with
          | false => rfl
          | true => exact absurd h2 hmaru
        rw [if_pos hm2]
        refine ⟨by simp, ?_⟩
        exact pyEndsWith_true
          ((show "。".data <:+ "に注視したい。".data by decide).trans (List.suffix_append _ _))

/-- C5: the code's daily aggregation — shift the timestamps backward by 17
hours, group by calendar day with open=first/high=max/low=min/close=last,
then shift the resulting labels forward by 17 hours — coincides with
grouping on the 17:00 rollover boundary (key `⌊(ts − 17)/24⌋`, label at
the group's 17:00 boundary). -/
theorem dl_ohlc_1d_is_17h_rollover (bars : List Bar) :
    _dl_ohlc_v21_1d bars = fxDaily17 bars := by
  unfold _dl_ohlc_v21_1d fxDaily17 resample1D shiftIdx
  rw [List.map_map, List.map_map]
  have hkey : (fun b : Bar => b.ts.fdiv 24) ∘ (fun b : Bar => { b with ts := b.ts + (-17) })
      = fun b : Bar => (b.ts - 17).fdiv 24 := rfl
  rw [hkey]
  apply List.map_congr_left
  intro k hk
  have hfil : (List.filter (fun b => decide (b.ts.fdiv 24 = k))
        (List.map (fun b : Bar => { b with ts := b.ts + (-17) }) bars))
      = List.map (fun b : Bar => { b with ts := b.ts + (-17) })
        (List.filter (fun b => decide ((b.ts - 17).fdiv 24 = k)) bars) :=
    List.filter_map _ _
  simp only [hfil, Function.comp, List.map_map]
  rfl

lemma dedupSeen_sublist {α κ : Type} [DecidableEq κ] (f : α → κ) :
    ∀ (seen : List κ) (l : List α), List.Sublist (dedupSeen f seen l) l := by
  intro seen l
  induction l generalizing seen with
  | nil => simp [dedupSeen]
  | cons x t ih =>
    rw [dedupSeen]
    by_cases hx : f x ∈ seen
    · rw [if_pos hx]
      exact (ih seen).cons x
    · rw [if_neg hx]
      exact (ih (f x :: seen)).cons₂ x

lemma dedupSeen_key_notin {α κ : Type} [DecidableEq κ] (f : α → κ) :
    ∀ (seen : List κ) (l : List α) (e : α), e ∈ dedupSeen f seen l → f e ∉ seen := by
  intro seen l
  induction l generalizing seen with
  | nil => simp [dedupSeen]
  | cons x t ih =>
    intro e he
    rw [dedupSeen] at he
    by_cases hx : f x ∈ seen
    · rw [if_pos hx] at he
      exact ih seen e he
    · rw [if_neg hx] at he
      rcases List.mem_cons.mp he with rfl | h2
      · exact hx
      · intro hmem
        exact ih (f x :: seen) e h2 (List.mem_cons_of_mem _ hmem)

lemma dedupSeen_pairwise_ne {α κ : Type} [DecidableEq κ] (f : α → κ) :
    ∀ (seen : List κ) (l : List α),
      (dedupSeen f seen l).Pairwise (fun a b => f a ≠ f b) := by
  intro seen l
  induction l generalizing seen with
  | nil => simp [dedupSeen]
  | cons x t ih =>
    rw [dedupSeen]
    by_cases hx : f x ∈ seen
    · rw [if_pos hx]
      exact ih seen
    · rw [if_neg hx]
      refine List.Pairwise.cons ?_ (ih (f x :: seen))
      intro b hb heq
      exact dedupSeen_key_notin f _ _ b hb (heq ▸ List.mem_cons_self _ _)

lemma dedupSeen_covers {α κ : Type} [DecidableEq κ] (f : α → κ) :
    ∀ (seen : List κ) (l : List α) (e' : α), e' ∈ l → f e' ∉ seen →
      ∃ e ∈ dedupSeen f seen l, f e = f e' := by
  intro seen l
  induction l generalizing seen with
  | nil => simp
  | cons x t ih =>
    intro e' he' hns
    rw [dedupSeen]
    by_cases hx : f x ∈ seen
    · rw [if_pos hx]
      rcases List.mem_cons.mp he' with rfl | h2
      · exact absurd hx hns
      · exact ih seen e' h2 hns
    · rw [if_neg hx]
      rcases List.mem_cons.mp he' with rfl | h2
      · exact ⟨e', List.mem_cons_self _ _, rfl⟩
      · by_cases hk : f e' = f x
        · exact ⟨x, List.mem_cons_self _ _, hk.symm⟩
        · obtain ⟨e, he, hfe⟩ := ih (f x :: seen) e' h2 (by
            intro hmem
            rcases List.mem_cons.mp hmem with h | h
            · exact hk h
            · exact hns h)
          exact ⟨e, List.mem_cons_of_mem _ he, hfe⟩

lemma dedupSeen_sorted_max {α κ : Type} [DecidableEq κ] (f : α → κ)
    (r : α → α → Prop) :
    ∀ (seen : List κ) (l : List α), l.Pairwise r →
      ∀ e ∈ dedupSeen f seen l, ∀ e' ∈ l, f e' = f e → e = e' ∨ r e e' := by
  intro seen l
  induction l generalizing seen with
  | nil => simp
  | cons x t ih =>
    intro hp e he e' he' hk
    rw [dedupSeen] at he
    by_cases hx : f x ∈ seen
    · rw [if_pos hx] at he
      rcases List.mem_cons.mp he' with rfl | h2
      · exact absurd (hk ▸ hx) (dedupSeen_key_notin f seen t e he)
      · exact ih seen (List.Pairwise.sublist (List.sublist_cons_self _ _) hp) e he e' h2 hk
    · rw [if_neg hx] at he
      rcases List.mem_cons.mp he with rfl | he2
      · rcases List.mem_cons.mp he' with rfl | h2
        · exact Or.inl rfl
        · exact Or.inr ((List.pairwise_cons.mp hp).1 e' h2)
      · have hne : f e ≠ f x := by
          intro heq
          exact dedupSeen_key_notin f _ _ e he2 (heq ▸ List.mem_cons_self _ _)
        rcases List.mem_cons.mp he' with rfl | h2
        · exact absurd hk.symm hne
        · exact ih (f x :: seen) (List.Pairwise.sublist (List.sublist_cons_self _ _) hp)
            e he2 e' h2 hk

lemma leScoreHM_score {a b : EvRow} (h : leScoreHM a b) : b.score ≤ a.score := by
  unfold leScoreHM at h
  omega

lemma key4_eq_imp_key3 {a b : EvRow} (h : key4 a = key4 b) : key3 a = key3 b := by
  unfold key4 at h
  unfold key3
  simp only [Prod.mk.injEq] at h ⊢
  tauto

lemma applyBoosts_fields (e : EvRow) :
    (applyBoosts e).jikoku = e.jikoku ∧ (applyBoosts e).chiiki = e.chiiki ∧
    (applyBoosts e).category = e.category ∧ (applyBoosts e).score = e.score :=
  ⟨rfl, rfl, rfl, rfl⟩

/-- C1 (amended): after the collapse, no two ranked entries share the full
normalised `(time, region, category)` key, and the record kept for a key is
a highest-scoring one among the input records with that key.  (The claim's
stronger `(time, region)`-only version is refuted by
`reduce_events_time_region_cex`.) -/
theorem reduce_events_collapse (d : List EvRow) (maxItems : ℕ) :
    (reduce_events_for_body d maxItems).Pairwise
      (fun a b => ¬(a.jikoku = b.jikoku ∧ a.chiiki = b.chiiki ∧ a.category = b.category)) ∧
    ∀ e ∈ reduce_events_for_body d maxItems, ∀ e' ∈ d,
      e'.jikoku = e.jikoku → e'.chiiki = e.chiiki → e'.category = e.category →
      e'.score ≤ e.score := by
  by_cases hd : d = []
  · subst hd
    simp [reduce_events_for_body]
  · have hred : reduce_events_for_body d maxItems
        = (List.insertionSort leFinal ((dedupKeepFirst key3 (dedupKeepFirst key4
            (List.insertionSort leScoreHM d))).map applyBoosts)).take maxItems := by
      simp [reduce_events_for_body, hd]
    have hperm1 : (List.insertionSort leScoreHM d).Perm d := List.perm_insertionSort _ _
    have hsort1 : (List.insertionSort leScoreHM d).Pairwise leScoreHM :=
      List.sorted_insertionSort _ _
    have hsub2 : List.Sublist (dedupKeepFirst key4 (List.insertionSort leScoreHM d))
        (List.insertionSort leScoreHM d) := dedupSeen_sublist _ _ _
    have hsort2 : (dedupKeepFirst key4 (List.insertionSort leScoreHM d)).Pairwise leScoreHM :=
      hsort1.sublist hsub2
    have hpw3 : (dedupKeepFirst key3 (dedupKeepFirst key4
        (List.insertionSort leScoreHM d))).Pairwise (fun a b => key3 a ≠ key3 b) :=
      dedupSeen_pairwise_ne _ _ _
    have hmax : ∀ e ∈ dedupKeepFirst key3 (dedupKeepFirst key4
        (List.insertionSort leScoreHM d)), ∀ e' ∈ d, key3 e' = key3 e →
        e'.score ≤ e.score := by
      intro e he e' he'd hk
      have he'1 : e' ∈ List.insertionSort leScoreHM d := hperm1.mem_iff.mpr he'd
      obtain ⟨f2, hf2, hkf2⟩ := dedupSeen_covers key4 [] _ e' he'1 (by simp)
      have h1 : e'.score ≤ f2.score := by
        rcases dedupSeen_sorted_max key4 leScoreHM [] _ hsort1 f2 hf2 e' he'1 hkf2.symm with
          heq | hr
        · rw [heq]
        · exact leScoreHM_score hr
      have hd3mem : e' ∈ dedupKeepFirst key4 (List.insertionSort leScoreHM d) → True :=
        fun _ => trivial
      have hf2mem : f2 ∈ dedupKeepFirst key4 (List.insertionSort leScoreHM d) := hf2
      have hk3 : key3 f2 = key3 e := (key4_eq_imp_key3 hkf2).trans hk
      have h2 : f2.score ≤ e.score := by
        rcases dedupSeen_sorted_max key3 leScoreHM [] _ hsort2 e he f2 hf2mem hk3 with
          heq | hr
        · rw [heq]
        · exact leScoreHM_score hr
      omega
    have hpw4 : ((dedupKeepFirst key3 (dedupKeepFirst key4
        (List.insertionSort leScoreHM d))).map applyBoosts).Pairwise
        (fun a b => ¬(a.jikoku = b.jikoku ∧ a.chiiki = b.chiiki ∧ a.category = b.category)) := by
      rw [List.pairwise_map]
      refine hpw3.imp ?_
      intro a b hne hcon
      apply hne
      unfold key3
      obtain ⟨h1, h2, h3⟩ := hcon
      simp only [(applyBoosts_fields a).1, (applyBoosts_fields a).2.1,
        (applyBoosts_fields a).2.2.1, (applyBoosts_fields b).1, (applyBoosts_fields b).2.1,
        (applyBoosts_fields b).2.2.1] at h1 h2 h3
      rw [h1, h2, h3]
    have hperm5 : (List.insertionSort leFinal ((dedupKeepFirst key3 (dedupKeepFirst key4
        (List.insertionSort leScoreHM d))).map applyBoosts)).Perm
        ((dedupKeepFirst key3 (dedupKeepFirst key4
          (List.insertionSort leScoreHM d))).map applyBoosts) :=
      List.perm_insertionSort _ _
    have hpw5 := (hperm5.pairwise_iff (by
      intro a b hab hcon
      obtain ⟨h1, h2, h3⟩ := hcon
      exact hab ⟨h1.symm, h2.symm, h3.symm⟩)).mpr hpw4
    constructor
    · rw [hred]
      exact hpw5.sublist (List.take_sublist _ _)
    · intro e he e' he'd h1 h2 h3
      rw [hred] at he
      have he5 := (List.take_sublist _ _).subset he
      have he4 := hperm5.mem_iff.mp he5
      obtain ⟨e3, he3, rfl⟩ := List.mem_map.mp he4
      have hkey : key3 e' = key3 e3 := by
        unfold key3
        simp only [(applyBoosts_fields e3).1, (applyBoosts_fields e3).2.1,
          (applyBoosts_fields e3).2.2.1] at h1 h2 h3
        rw [h1, h2, h3]
      have := hmax e3 he3 e' he'd hkey
      have hs : (applyBoosts e3).score = e3.score := rfl
      omega

/-- C1 counterexample: two candidate events at the same time `10:00` and the
same region `US` but different categories both survive
`reduce_events_for_body` — the ranked list does contain two entries with an
equal (time, region) pair. -/
theorem reduce_events_time_region_cex :
    2 ≤ (reduce_events_for_body
        [EvRow.mk "10:00".data "x".data "US".data "A".data 3 10 0 0,
         EvRow.mk "10:00".data "y".data "US".data "B".data 2 10 0 0] 14).length ∧
    ((reduce_events_for_body
        [EvRow.mk "10:00".data "x".data "US".data "A".data 3 10 0 0,
         EvRow.mk "10:00".data "y".data "US".data "B".data 2 10 0 0] 14).getD 0
          default).jikoku
      = ((reduce_events_for_body
        [EvRow.mk "10:00".data "x".data "US".data "A".data 3 10 0 0,
         EvRow.mk "10:00".data "y".data "US".data "B".data 2 10 0 0] 14).getD 1
          default).jikoku ∧
    ((reduce_events_for_body
        [EvRow.mk "10:00".data "x".data "US".data "A".data 3 10 0 0,
         EvRow.mk "10:00".data "y".data "US".data "B".data 2 10 0 0] 14).getD 0
          default).chiiki
      = ((reduce_events_for_body
        [EvRow.mk "10:00".data "x".data "US".data "A".data 3 10 0 0,
         EvRow.mk "10:00".data "y".data "US".data "B".data 2 10 0 0] 14).getD 1
          default).chiiki ∧
    ((reduce_events_for_body
        [EvRow.mk "10:00".data "x".data "US".data "A".data 3 10 0 0,
         EvRow.mk "10:00".data "y".data "US".data "B".data 2 10 0 0] 14).getD 0 default)
      ≠ ((reduce_events_for_body
        [EvRow.mk "10:00".data "x".data "US".data "A".data 3 10 0 0,
         EvRow.mk "10:00".data "y".data "US".data "B".data 2 10 0 0] 14).getD 1 default) := by
  decide

/-- Witness for C1 (amended) on two same-key records with scores 3 and 2:
the kept record dominates the dropped one. -/
theorem reduce_events_collapse_witness :
    (EvRow.mk "10:00".data "y".data "US".data "A".data 2 10 0 0).score
      ≤ ((reduce_events_for_body
          [EvRow.mk "10:00".data "x".data "US".data "A".data 3 10 0 0,
           EvRow.mk "10:00".data "y".data "US".data "A".data 2 10 0 0] 14).getD 0
            default).score :=
  (reduce_events_collapse
      [EvRow.mk "10:00".data "x".data "US".data "A".data 3 10 0 0,
       EvRow.mk "10:00".data "y".data "US".data "A".data 2 10 0 0] 14).2
    _ (by decide) _ (by decide) (by decide) (by decide) (by decide)

/-- C8 counterexample: an empty draft paragraph comes out of the pad +
closer fix-up only 60 characters long — far below the configured minimum
of 180 — yet it is what the assembly ships. -/
theorem para2_below_min_cex :
    (para2FinalStep []).length = 60 ∧ ¬(180 ≤ (para2FinalStep []).length) := by
  decide

lemma ends_with_closer_append (x : PyStr) :
    _ends_with_closer (x ++ "方向感を見極めたい。".data) = true := by
  unfold _ends_with_closer
  rw [List.any_eq_true]
  refine ⟨"方向感を見極めたい。".data, by decide, ?_⟩
  exact decide_eq_true (List.suffix_append _ _)

/-- C8 (amended): the shipped paragraph 2 always ends in a whitelisted
closer; the 180-character minimum is guaranteed only when the draft is
within one pad sentence (50 chars) of the minimum, i.e. at least 130
characters after stripping. -/
theorem para2_final_whitelisted_closer_and_min (p2 : PyStr) :
    _ends_with_closer (para2FinalStep p2) = true ∧
    (130 ≤ (pyStrip p2).length → 180 ≤ (para2FinalStep p2).length) := by
  constructor
  · unfold para2FinalStep
    by_cases hc : _ends_with_closer (pad_para2 p2 180) = true
    · rw [if_pos hc]
      exact hc
    · rw [if_neg hc]
      exact ends_with_closer_append _
  · intro h130
    have hp : 180 ≤ (pad_para2 p2 180).length := by
      unfold pad_para2
      by_cases h180 : 180 ≤ (pyStrip p2).length
      · rw [if_pos h180]
        exact h180
      · rw [if_neg h180]
        have haddon : padAddon.length = 50 := by decide
        by_cases hsp : pyStrip p2 ≠ [] ∧ pyEndsWith (pyStrip p2) "。".data = false
        · rw [if_pos hsp]
          simp only [List.length_append, haddon]
          omega
        · rw [if_neg hsp]
          rw [List.length_append, haddon]
          omega
    unfold para2FinalStep
    by_cases hc : _ends_with_closer (pad_para2 p2 180) = true
    · rw [if_pos hc]
      exact hp
    · rw [if_neg hc]
      by_cases hm : pyEndsWith (pad_para2 p2 180) "。".data = false
      · rw [if_pos hm]
        simp only [List.length_append]
        omega
      · rw [if_neg hm]
        simp only [List.length_append]
        omega

set_option maxRecDepth 80000 in
/-- Witness for C8 (amended) on a 130-character draft. -/
theorem para2_final_witness :
    180 ≤ (para2FinalStep ("う".data ++ List.replicate 129 'あ')).length :=
  (para2_final_whitelisted_closer_and_min ("う".data ++ List.replicate 129 'あ')).2
    (by decide)

lemma zen_id {s : PyStr} (h : ∀ c ∈ s, c ≠ Char.ofNat 0x3000) :
    zenkakuToSpace s = s := by
  induction s with
  | nil => rfl
  | cons c t ih =>
    unfold zenkakuToSpace at *
    simp only [List.map_cons, List.cons.injEq]
    constructor
    · rw [if_neg]
      simp only [beq_iff_eq]
      exact h c (List.mem_cons_self _ _)
    · exact ih (fun c hc => h c (List.mem_cons_of_mem _ hc))

lemma collapse_go_id : ∀ (s : PyStr) (st : Bool),
    (∀ c ∈ s, c ≠ '\t') →
    s.Chain' (fun a b => ¬(a = ' ' ∧ b = ' ')) →
    (st = true → s.head?.all (fun c => !(c == ' ')) = true) →
    collapseGo st s = s := by
  intro s
  induction s with
  | nil => intro st _ _ _; rfl
  | cons c t ih =>
    intro st htab hch hst
    rw [collapseGo]
    by_cases hb : isBlankTab c = true
    · have hc : c = ' ' := by
        unfold isBlankTab at hb
        rcases Bool.or_eq_true _ _ |>.mp hb with h1 | h1
        · exact beq_iff_eq.mp h1
        · exact absurd (beq_iff_eq.mp h1) (htab c (List.mem_cons_self _ _))
      have hstf : st = false := by
        cases st with
        | false => rfl
        | true =>
          have := hst rfl
          rw [List.head?_cons, Option.all_some] at this
          rw [hc] at this
          simp at this
      subst hstf
      rw [if_pos hb, if_neg (by simp)]
      subst hc
      simp only [List.cons.injEq, true_and]
      apply ih
      · exact fun c hc => htab c (List.mem_cons_of_mem _ hc)
      · exact (List.chain'_cons'.mp hch).2
      · intro _
        rcases t with _ | ⟨d, t2⟩
        · rfl
        · rw [List.head?_cons, Option.all_some]
          have := (List.chain'_cons'.mp hch).1 d (by simp)
          simp only [Bool.not_eq_true', beq_eq_false_iff_ne, ne_eq]
          intro hd
          exact this ⟨rfl, hd⟩
    · rw [if_neg hb]
      simp only [List.cons.injEq, true_and]
      apply ih
      · exact fun c hc => htab c (List.mem_cons_of_mem _ hc)
      · exact (List.chain'_cons'.mp hch).2
      · intro hfalse
        exact (Bool.false_ne_true hfalse).elim

lemma rm_aux_id : ∀ (l : PyStr) (ap : Bool),
    l.Chain' (fun a b => ¬(isPunct a = true ∧ isPySpace b = true)) →
    (ap = true → l.head?.all (fun c => !isPySpace c) = true) →
    rmWsAux ap l = l := by
  intro l
  induction l with
  | nil => intro ap _ _; rfl
  | cons c t ih =>
    intro ap hch hap
    rw [rmWsAux]
    rw [if_neg (by
      intro hcon
      rcases Bool.and_eq_true _ _ |>.mp hcon with ⟨h1, h2⟩
      have := hap h1
      rw [List.head?_cons, Option.all_some] at this
      rw [h2] at this
      simp at this)]
    simp only [List.cons.injEq, true_and]
    apply ih
    · exact (List.chain'_cons'.mp hch).2
    · intro hpc
      rcases t with _ | ⟨d, t2⟩
      · rfl
      · rw [List.head?_cons, Option.all_some]
        have := (List.chain'_cons'.mp hch).1 d (by simp)
        simp only [Bool.not_eq_true']
        rw [Bool.eq_false_iff]
        intro hd
        exact this ⟨hpc, hd⟩

lemma dropWhile_id {p : Char → Bool} {s : PyStr}
    (h : s.head?.all (fun c => !p c) = true) : s.dropWhile p = s := by
  rcases s with _ | ⟨c, t⟩
  · rfl
  · rw [List.head?_cons, Option.all_some] at h
    rw [List.dropWhile_cons, if_neg (by simp only [Bool.not_eq_true'] at h; simp [h])]

lemma strip_id {s : PyStr}
    (hh : s.head?.all (fun c => !isPySpace c) = true)
    (hl : s.getLast?.all (fun c => !isPySpace c) = true) : pyStrip s = s := by
  unfold pyStrip dropTrailing
  rw [dropWhile_id hh, dropWhile_id (by rw [List.head?_reverse]; exact hl), List.reverse_reverse]

lemma clean_safe_id {s : PyStr} (hc : CleanInv s)
    (he : s = [] ∨ endsSentence s = true) : _clean_text_jp_safe s = s := by
  obtain ⟨h1, h2, h3, h4, h5⟩ := hc
  have hz : zenkakuToSpace s = s := zen_id (fun c hc => (h1 c hc).1)
  have hcol : collapseBlanks s = s := by
    unfold collapseBlanks
    exact collapse_go_id s false (fun c hc => (h1 c hc).2) h2 (by simp)
  have hrm : rmWsBeforePunct s = s := by
    unfold rmWsBeforePunct
    rw [rm_aux_id s.reverse false (by
      rw [List.chain'_reverse]
      exact h3.imp (by
        intro a b hab hcon
        exact hab ⟨hcon.2, hcon.1⟩)) (by simp), List.reverse_reverse]
  unfold _clean_text_jp_safe
  rw [hz, hcol, hrm, strip_id h4 h5]
  rcases he with rfl | hend
  · simp
  · rw [if_neg (by
      intro hcon
      rw [hend] at hcon
      simp at hcon)]

lemma head_all_not_space {l : PyStr} {y : Char}
    (hall : l.head?.all (fun c => !(c == ' ')) = true)
    (hy : l.head? = some y) : y ≠ ' ' := by
  rw [hy, Option.all_some] at hall
  simp only [Bool.not_eq_true'] at hall
  exact fun h => by
    rw [h] at hall
    simp at hall

lemma collapse_go_props : ∀ (s : PyStr) (st : Bool),
    (∀ c ∈ collapseGo st s, c ≠ '\t' ∧ (c ∈ s ∨ c = ' ')) ∧
    (collapseGo st s).Chain' (fun a b => ¬(a = ' ' ∧ b = ' ')) ∧
    (st = true → (collapseGo st s).head?.all (fun c => !(c == ' ')) = true) := by
  intro s
  induction s with
  | nil =>
    intro st
    exact ⟨by simp [collapseGo], by simp [collapseGo], by simp [collapseGo]⟩
  | cons c t ih =>
    intro st
    rw [collapseGo]
    by_cases hb : isBlankTab c = true
    · rw [if_pos hb]
      by_cases hst : st = true
      · rw [if_pos hst]
        refine ⟨?_, (ih true).2.1, fun _ => (ih true).2.2 rfl⟩
        intro d hd
        obtain ⟨hd1, hd2⟩ := (ih true).1 d hd
        exact ⟨hd1, hd2.imp (List.mem_cons_of_mem _) id⟩
      · rw [if_neg hst]
        refine ⟨?_, ?_, fun h => absurd h hst⟩
        · intro d hd
          rcases List.mem_cons.mp hd with rfl | hd2
          · exact ⟨by simp, Or.inr rfl⟩
          · obtain ⟨hd1, hd3⟩ := (ih true).1 d hd2
            exact ⟨hd1, hd3.imp (List.mem_cons_of_mem _) id⟩
        · rw [List.chain'_cons']
          refine ⟨?_, (ih true).2.1⟩
          intro y hy hcon
          exact head_all_not_space ((ih true).2.2 rfl) hy hcon.2
    · rw [if_neg hb]
      have hcne : ¬(c == ' ') = true := by
        intro hcsp
        apply hb
        unfold isBlankTab
        rw [hcsp]
        rfl
      refine ⟨?_, ?_, ?_⟩
      · intro d hd
        rcases List.mem_cons.mp hd with rfl | hd2
        · refine ⟨?_, Or.inl (List.mem_cons_self _ _)⟩
          intro hdt
          apply hb
          unfold isBlankTab
          rw [hdt]
          simp
        · obtain ⟨hd1, hd3⟩ := (ih false).1 d hd2
          exact ⟨hd1, hd3.imp (List.mem_cons_of_mem _) id⟩
      · rw [List.chain'_cons']
        refine ⟨?_, (ih false).2.1⟩
        intro y _ hcon
        apply hcne
        rw [hcon.1]
        rfl
      · intro _
        rw [List.head?_cons, Option.all_some]
        simp only [Bool.not_eq_true']
        rw [Bool.eq_false_iff]
        exact hcne

lemma rm_aux_head_false (t : PyStr) : (rmWsAux false t).head? = t.head? := by
  rcases t with _ | ⟨d, t2⟩
  · rfl
  · rw [rmWsAux, if_neg (by simp)]
    rfl

lemma rm_aux_props : ∀ (l : PyStr) (ap : Bool),
    List.Sublist (rmWsAux ap l) l ∧
    (rmWsAux ap l).Chain' (fun a b => ¬(isPunct a = true ∧ isPySpace b = true)) ∧
    (ap = true → (rmWsAux ap l).head?.all (fun c => !isPySpace c) = true) := by
  intro l
  induction l with
  | nil =>
    intro ap
    exact ⟨by simp [rmWsAux], by simp [rmWsAux], by simp [rmWsAux]⟩
  | cons c t ih =>
    intro ap
    rw [rmWsAux]
    by_cases hsk : (ap && isPySpace c) = true
    · rw [if_pos hsk]
      refine ⟨(ih ap).1.cons _, (ih ap).2.1, fun _ => (ih ap).2.2 (Bool.and_eq_true _ _ |>.mp hsk).1⟩
    · rw [if_neg hsk]
      refine ⟨(ih (isPunct c)).1.cons₂ _, ?_, ?_⟩
      · rw [List.chain'_cons']
        refine ⟨?_, (ih (isPunct c)).2.1⟩
        intro y hy hcon
        have hall := (ih (isPunct c)).2.2 hcon.1
        rw [hy, Option.all_some] at hall
        rw [hcon.2] at hall
        simp at hall
      · intro hap
        rw [List.head?_cons, Option.all_some]
        have : isPySpace c = false := by
          cases h : isPySpace c with
          | false => rfl
          | true => exact absurd (by rw [hap, h]; rfl) hsk
        simp [this]

lemma rm_aux_chain_sp : ∀ (l : PyStr) (ap : Bool),
    l.Chain' (fun a b => ¬(a = ' ' ∧ b = ' ')) →
    (rmWsAux ap l).Chain' (fun a b => ¬(a = ' ' ∧ b = ' ')) := by
  intro l
  induction l with
  | nil => intro ap _; simp [rmWsAux]
  | cons c t ih =>
    intro ap hch
    rw [rmWsAux]
    by_cases hsk : (ap && isPySpace c) = true
    · rw [if_pos hsk]
      exact ih ap (List.chain'_cons'.mp hch).2
    · rw [if_neg hsk]
      rw [List.chain'_cons']
      refine ⟨?_, ih (isPunct c) (List.chain'_cons'.mp hch).2⟩
      intro y hy hcon
      by_cases hpc : isPunct c = true
      · have hall := (rm_aux_props t (isPunct c)).2.2 hpc
        rw [hy, Option.all_some] at hall
        rw [hcon.2] at hall
        have : isPySpace ' ' = true := by simp [isPySpace]
        rw [this] at hall
        simp at hall
      · have hpcf : isPunct c = false := by
          cases h : isPunct c with
          | false => rfl
          | true => exact absurd h hpc
        rw [hpcf, rm_aux_head_false] at hy
        exact (List.chain'_cons'.mp hch).1 y hy hcon

lemma dw_head_all (p : Char → Bool) (s : PyStr) :
    (s.dropWhile p).head?.all (fun c => !p c) = true := by
  induction s with
  | nil => rfl
  | cons c t ih =>
    rw [List.dropWhile_cons]
    by_cases h : p c = true
    · rw [if_pos h]; exact ih
    · rw [if_neg (by simp [h])]
      rw [List.head?_cons, Option.all_some]
      simp [h]

lemma chain_of_suffix {R : Char → Char → Prop} {a b : PyStr}
    (h : b <:+ a) (hch : a.Chain' R) : b.Chain' R := by
  obtain ⟨pre, rfl⟩ := h
  exact (List.chain'_append.mp hch).2.1

lemma getLast_of_suffix {a b : PyStr} (h : b <:+ a) (hne : b ≠ []) :
    a.getLast? = b.getLast? := by
  obtain ⟨pre, rfl⟩ := h
  rw [List.getLast?_append_of_ne_nil _ hne]

lemma strip_props (s : PyStr) :
    List.Sublist (pyStrip s) s ∧
    (∀ R : Char → Char → Prop, s.Chain' R → (pyStrip s).Chain' R) ∧
    (pyStrip s).head?.all (fun c => !isPySpace c) = true ∧
    (pyStrip s).getLast?.all (fun c => !isPySpace c) = true := by
  unfold pyStrip dropTrailing
  set a := s.dropWhile isPySpace with ha
  set r := (a.reverse.dropWhile isPySpace).reverse with hr
  have hsuf1 : a <:+ s := List.dropWhile_suffix _
  have hsuf2 : a.reverse.dropWhile isPySpace <:+ a.reverse := List.dropWhile_suffix _
  refine ⟨?_, ?_, ?_, ?_⟩
  · have h1 : List.Sublist r a := by
      have h2 := (hsuf2.sublist).reverse
      rw [List.reverse_reverse] at h2
      exact h2
    exact h1.trans hsuf1.sublist
  · intro R hch
    have hcha : a.Chain' R := chain_of_suffix hsuf1 hch
    rw [hr, List.chain'_reverse]
    exact chain_of_suffix hsuf2 (by rw [List.chain'_reverse]; simpa using hcha)
  · rw [hr, List.head?_reverse]
    rcases hdw : a.reverse.dropWhile isPySpace with _ | ⟨c, t⟩
    · simp
    · rw [← hdw, ← getLast_of_suffix hsuf2 (by rw [hdw]; simp), List.getLast?_reverse]
      exact dw_head_all _ _
  · rw [hr, List.getLast?_reverse]
    exact dw_head_all _ _

lemma zen_no_zen (x : PyStr) : ∀ c ∈ zenkakuToSpace x, c ≠ Char.ofNat 0x3000 := by
  intro c hc
  unfold zenkakuToSpace at hc
  obtain ⟨a, _, ha⟩ := List.mem_map.mp hc
  by_cases hz : (a == Char.ofNat 0x3000) = true
  · rw [if_pos hz] at ha
    rw [← ha]
    decide
  · rw [if_neg hz] at ha
    rw [← ha]
    simpa using hz

lemma clean_invariants_core (x : PyStr) :
    CleanInv (pyStrip (rmWsBeforePunct (collapseBlanks (zenkakuToSpace x)))) := by
  set z := zenkakuToSpace x with hz
  set co := collapseBlanks z with hco
  set rm := rmWsBeforePunct co with hrm
  have hcoprops := collapse_go_props z false
  have hco1 : ∀ c ∈ co, c ≠ Char.ofNat 0x3000 ∧ c ≠ '\t' := by
    intro c hc
    obtain ⟨h1, h2⟩ := hcoprops.1 c hc
    refine ⟨?_, h1⟩
    rcases h2 with h2 | rfl
    · exact zen_no_zen x c h2
    · decide
  have hco2 : co.Chain' (fun a b => ¬(a = ' ' ∧ b = ' ')) := hcoprops.2.1
  have hrmsub : List.Sublist rm co := by
    rw [hrm]
    unfold rmWsBeforePunct
    have h2 := (rm_aux_props co.reverse false).1.reverse
    rw [List.reverse_reverse] at h2
    exact h2
  have hrm1 : ∀ c ∈ rm, c ≠ Char.ofNat 0x3000 ∧ c ≠ '\t' :=
    fun c hc => hco1 c (hrmsub.subset hc)
  have hrm2 : rm.Chain' (fun a b => ¬(a = ' ' ∧ b = ' ')) := by
    rw [hrm]
    unfold rmWsBeforePunct
    rw [List.chain'_reverse]
    refine (rm_aux_chain_sp co.reverse false (by
      rw [List.chain'_reverse]
      exact hco2.imp (fun a b h hcon => h ⟨hcon.2, hcon.1⟩))).imp ?_
    intro a b h hcon
    exact h ⟨hcon.2, hcon.1⟩
  have hrm3 : rm.Chain' (fun a b => ¬(isPySpace a = true ∧ isPunct b = true)) := by
    rw [hrm]
    unfold rmWsBeforePunct
    rw [List.chain'_reverse]
    exact (rm_aux_props co.reverse false).2.1.imp (fun a b h hcon => h ⟨hcon.2, hcon.1⟩)
  have hsp := strip_props rm
  exact ⟨fun c hc => hrm1 c (hsp.1.subset hc), hsp.2.1 _ hrm2, hsp.2.1 _ hrm3,
    hsp.2.2.1, hsp.2.2.2⟩

lemma clean_safe_props (x : PyStr) :
    CleanInv (_clean_text_jp_safe x) ∧
    (_clean_text_jp_safe x = [] ∨ endsSentence (_clean_text_jp_safe x) = true) := by
  have hcore := clean_invariants_core x
  unfold _clean_text_jp_safe
  set st := pyStrip (rmWsBeforePunct (collapseBlanks (zenkakuToSpace x))) with hst
  by_cases hb : st ≠ [] ∧ endsSentence st = false
  · rw [if_pos hb]
    obtain ⟨h1, h2, h3, h4, h5⟩ := hcore
    constructor
    · refine ⟨?_, ?_, ?_, ?_, ?_⟩
      · intro c hc
        rcases List.mem_append.mp hc with hc | hc
        · exact h1 c hc
        · have hcm : c = '。' := by simpa using hc
          subst hcm
          exact ⟨by decide, by decide⟩
      · rw [List.chain'_append]
        refine ⟨h2, by simp, ?_⟩
        intro a _ y hy hcon
        have : y = '。' := by
          simp only [List.head?_cons, Option.mem_def, Option.some.injEq] at hy
          exact hy.symm
        rw [this] at hcon
        exact absurd hcon.2 (by decide)
      · rw [List.chain'_append]
        refine ⟨h3, by simp, ?_⟩
        intro a ha y hy hcon
        rw [Option.mem_def] at ha
        have hall := h5
        rw [ha, Option.all_some] at hall
        rw [hcon.1] at hall
        simp at hall
      · rw [List.head?_append_of_ne_nil _ hb.1]  -- check name
        exact h4
      · rw [List.getLast?_concat]
        simp
        decide
    · right
      unfold endsSentence pyEndsWith
      rw [Bool.or_eq_true, Bool.or_eq_true]
      left; left
      exact decide_eq_true (List.suffix_append _ _)
  · rw [if_neg hb]
    refine ⟨hcore, ?_⟩
    by_cases hnil : st = []
    · exact Or.inl hnil
    · right
      rcases Bool.eq_false_or_eq_true (endsSentence st) with h | h
      · exact h
      · exact absurd ⟨hnil, h⟩ hb

lemma ends_maru_getLast {s : PyStr} (h : pyEndsWith s "。".data = true) :
    s.getLast? = some '。' := by
  obtain ⟨pre, hpre⟩ := of_decide_eq_true h
  rw [← hpre]
  rw [List.getLast?_concat]

lemma append_maru_props {s : PyStr} (hs : CleanInv s) (hne : s ≠ []) :
    CleanInv (s ++ "。".data) ∧ pyEndsWith (s ++ "。".data) "。".data = true := by
  obtain ⟨h1, h2, h3, h4, h5⟩ := hs
  refine ⟨⟨?_, ?_, ?_, ?_, ?_⟩, ?_⟩
  · intro c hc
    rcases List.mem_append.mp hc with hc | hc
    · exact h1 c hc
    · have hcm : c = '。' := by simpa using hc
      subst hcm
      exact ⟨by decide, by decide⟩
  · rw [List.chain'_append]
    refine ⟨h2, by simp, ?_⟩
    intro a _ y hy hcon
    have hym : y = '。' := by
      have := hy
      simp only [List.head?_cons, Option.mem_def, Option.some.injEq] at this
      exact this.symm
    rw [hym] at hcon
    exact absurd hcon.2 (by decide)
  · rw [List.chain'_append]
    refine ⟨h3, by simp, ?_⟩
    intro a ha y _ hcon
    rw [Option.mem_def] at ha
    rw [ha, Option.all_some] at h5
    rw [hcon.1] at h5
    simp at h5
  · rw [List.head?_append_of_ne_nil _ hne]
    exact h4
  · rw [List.getLast?_concat]
    simp only [Option.all_some]
    decide
  · exact decide_eq_true (List.suffix_append _ _)

lemma padNormalize_props (x : PyStr) :
    CleanInv (padNormalize x) ∧
    (padNormalize x = [] ∨ pyEndsWith (padNormalize x) "。".data = true) := by
  have hc := (clean_safe_props (pyStrip x)).1
  unfold padNormalize
  by_cases hb : _clean_text_jp_safe (pyStrip x) ≠ [] ∧
      pyEndsWith (_clean_text_jp_safe (pyStrip x)) "。".data = false
  · rw [if_pos hb]
    obtain ⟨hci, hend⟩ := append_maru_props hc hb.1
    exact ⟨hci, Or.inr hend⟩
  · rw [if_neg hb]
    refine ⟨hc, ?_⟩
    by_cases hnil : _clean_text_jp_safe (pyStrip x) = []
    · exact Or.inl hnil
    · right
      rcases Bool.eq_false_or_eq_true
          (pyEndsWith (_clean_text_jp_safe (pyStrip x)) "。".data) with h | h
      · exact h
      · exact absurd ⟨hnil, h⟩ hb

lemma endsSentence_of_maru {s : PyStr} (h : pyEndsWith s "。".data = true) :
    endsSentence s = true := by
  unfold endsSentence
  rw [h]
  rfl

lemma padNormalize_fix {y : PyStr} (hc : CleanInv y)
    (he : y = [] ∨ pyEndsWith y "。".data = true) : padNormalize y = y := by
  have hstrip : pyStrip y = y := strip_id hc.2.2.2.1 hc.2.2.2.2
  have hclean : _clean_text_jp_safe y = y := clean_safe_id hc (by
    rcases he with rfl | h
    · exact Or.inl rfl
    · exact Or.inr (endsSentence_of_maru h))
  unfold padNormalize
  rw [hstrip, hclean]
  rcases he with rfl | h
  · simp
  · rw [if_neg (by
      intro hcon
      rw [h] at hcon
      simp at hcon)]

lemma padNormalize_idem (x : PyStr) :
    padNormalize (padNormalize x) = padNormalize x :=
  padNormalize_fix (padNormalize_props x).1 (padNormalize_props x).2


lemma chainB_iff (R : Char → Char → Bool) :
    ∀ l : PyStr, chainB R l = true ↔ l.Chain' (fun a b => R a b = true)
  | [] => by simp [chainB]
  | [a] => by simp [chainB]
  | a :: b :: t => by
    rw [chainB, Bool.and_eq_true, List.chain'_cons, chainB_iff R (b :: t)]

lemma fillers_facts : ∀ f ∈ fillers, CleanInv f ∧ (∀ c ∈ f, isPySpace c = false) ∧
    f ≠ [] ∧ pyEndsWith f "。".data = true := by
  have hsp : ∀ g ∈ fillers, chainB (fun a b => !(a == ' ' && b == ' ')) g = true := by
    decide
  have hwp : ∀ g ∈ fillers, chainB (fun a b => !(isPySpace a && isPunct b)) g = true := by
    decide
  have hchars : ∀ g ∈ fillers, ∀ c ∈ g,
      (c ≠ Char.ofNat 0x3000 ∧ c ≠ '\t') ∧ isPySpace c = false := by decide
  have hedge : ∀ g ∈ fillers, g.head?.all (fun c => !isPySpace c) = true ∧
      g.getLast?.all (fun c => !isPySpace c) = true ∧ g ≠ [] ∧
      pyEndsWith g "。".data = true := by decide
  intro f hf
  refine ⟨⟨fun c hc => (hchars f hf c hc).1, ?_, ?_, (hedge f hf).1, (hedge f hf).2.1⟩,
    fun c hc => (hchars f hf c hc).2, (hedge f hf).2.2.1, (hedge f hf).2.2.2⟩
  · refine ((chainB_iff _ f).mp (hsp f hf)).imp ?_
    intro a b h hcon
    rw [hcon.1, hcon.2] at h
    simp at h
  · refine ((chainB_iff _ f).mp (hwp f hf)).imp ?_
    intro a b h hcon
    rw [hcon.1, hcon.2] at h
    simp at h

lemma filler_append_props {s f : PyStr} (hs : CleanInv s)
    (he : s = [] ∨ pyEndsWith s "。".data = true) (hf : f ∈ fillers) :
    CleanInv (s ++ f) ∧ pyEndsWith (s ++ f) "。".data = true := by
  obtain ⟨hfc, hfns, hfne, hfe⟩ := fillers_facts f hf
  rcases he with rfl | hmaru
  · rw [List.nil_append]
    exact ⟨hfc, hfe⟩
  · have hne : s ≠ [] := by
      intro hnil
      rw [hnil] at hmaru
      simp [pyEndsWith] at hmaru
    obtain ⟨h1, h2, h3, h4, h5⟩ := hs
    obtain ⟨g1, g2, g3, g4, g5⟩ := hfc
    have hlast : s.getLast? = some '。' := ends_maru_getLast hmaru
    refine ⟨⟨?_, ?_, ?_, ?_, ?_⟩, ?_⟩
    · intro c hc
      rcases List.mem_append.mp hc with hc | hc
      · exact h1 c hc
      · exact g1 c hc
    · rw [List.chain'_append]
      refine ⟨h2, g2, ?_⟩
      intro a ha y _ hcon
      rw [Option.mem_def, hlast, Option.some.injEq] at ha
      rw [← ha] at hcon
      exact absurd hcon.1 (by decide)
    · rw [List.chain'_append]
      refine ⟨h3, g3, ?_⟩
      intro a ha y _ hcon
      rw [Option.mem_def, hlast, Option.some.injEq] at ha
      rw [← ha] at hcon
      exact absurd hcon.1 (by decide)
    · rw [List.head?_append_of_ne_nil _ hne]
      exact h4
    · rw [List.getLast?_append_of_ne_nil _ hfne]
      exact g5
    · apply decide_eq_true
      exact (of_decide_eq_true hfe).trans (List.suffix_append _ _)

lemma appendSent_eq {s f : PyStr} (he : s = [] ∨ pyEndsWith s "。".data = true) :
    appendSent s f = s ++ f := by
  unfold appendSent
  rcases he with rfl | h
  · simp
  · rw [if_neg (by
      intro hcon
      rw [h] at hcon
      simp at hcon)]

lemma appendSent_start (s f : PyStr) : s <+: appendSent s f := by
  unfold appendSent
  by_cases h : s ≠ [] ∧ pyEndsWith s "。".data = false
  · rw [if_pos h, List.append_assoc]
    exact List.prefix_append _ _
  · rw [if_neg h]
    exact List.prefix_append _ _

lemma foldl_appendSent_start : ∀ (fs : List PyStr) (s : PyStr),
    s <+: List.foldl appendSent s fs := by
  intro fs
  induction fs with
  | nil => intro s; simp
  | cons f rest ih =>
    intro s
    rw [List.foldl_cons]
    exact (appendSent_start s f).trans (ih (appendSent s f))

lemma infix_of_infix_start {u a b : PyStr} (h1 : u <:+: a) (h2 : a <+: b) : u <:+: b :=
  h1.trans h2.isInfix

lemma getD_mem_fillers (j : ℕ) : fillers.getD (j % fillers.length) [] ∈ fillers := by
  have hlt : j % fillers.length < fillers.length := Nat.mod_lt _ (by decide)
  rw [List.getD_eq_getElem?_getD, List.getElem?_eq_getElem hlt]
  exact List.getElem_mem hlt

lemma padLoop_decomp (m st : ℕ) : ∀ (fu i : ℕ) (used : List PyStr) (s : PyStr),
    CleanInv s → (s = [] ∨ pyEndsWith s "。".data = true) →
    (∀ u ∈ used, u <:+: s) →
    ∃ fs : List PyStr,
      (∀ f ∈ fs, f ∈ fillers ∧ ¬ f <:+: s) ∧ fs.Nodup ∧
      padLoop m st i fu used s = List.foldl appendSent s fs ∧
      CleanInv (padLoop m st i fu used s) ∧
      (padLoop m st i fu used s = [] ∨
        pyEndsWith (padLoop m st i fu used s) "。".data = true) := by
  intro fu
  induction fu with
  | zero =>
    intro i used s hc he _
    exact ⟨[], by simp, List.nodup_nil, rfl, hc, he⟩
  | succ fu ih =>
    intro i used s hc he hused
    rw [padLoop]
    by_cases hcond : lenNoNL s < m ∧ i < fillers.length * 2
    · rw [if_pos hcond]
      set cand := fillers.getD ((st + i) % fillers.length) [] with hcand
      have hcmem : cand ∈ fillers := getD_mem_fillers _
      by_cases hskip : (pyHasSub s cand || used.contains cand) = true
      · rw [if_pos hskip]
        exact ih (i + 1) used s hc he hused
      · rw [if_neg hskip]
        have hnotin : ¬ cand <:+: s := by
          rcases Bool.or_eq_false_iff.mp (Bool.eq_false_iff.mpr hskip) with ⟨h1, _⟩
          exact of_decide_eq_false h1
        have hseq : appendSent s cand = s ++ cand := appendSent_eq he
        obtain ⟨hci', hend'⟩ := filler_append_props hc he hcmem
        have hstate' : CleanInv (appendSent s cand) ∧
            (appendSent s cand = [] ∨ pyEndsWith (appendSent s cand) "。".data = true) := by
          rw [hseq]
          exact ⟨hci', Or.inr hend'⟩
        have hused' : ∀ u ∈ cand :: used, u <:+: appendSent s cand := by
          intro u hu
          rw [hseq]
          rcases List.mem_cons.mp hu with rfl | hu2
          · exact ⟨s, [], by simp⟩
          · exact (hused u hu2).trans ⟨[], cand, by simp⟩
        obtain ⟨fs', hfs1, hfs2, hfs3, hfs4, hfs5⟩ :=
          ih (i + 1) (cand :: used) (appendSent s cand) hstate'.1 hstate'.2 hused'
        refine ⟨cand :: fs', ?_, ?_, ?_, hfs4, hfs5⟩
        · intro f hf
          rcases List.mem_cons.mp hf with rfl | hf2
          · exact ⟨hcmem, hnotin⟩
          · refine ⟨(hfs1 f hf2).1, ?_⟩
            intro hinf
            exact (hfs1 f hf2).2 (by
              rw [hseq]
              exact hinf.trans ⟨[], cand, by simp⟩)
        · refine List.nodup_cons.mpr ⟨?_, hfs2⟩
          intro hmem
          apply (hfs1 cand hmem).2
          rw [hseq]
          exact ⟨s, [], by simp⟩
        · rw [List.foldl_cons, hfs3]
    · rw [if_neg hcond]
      exact ⟨[], by simp, List.nodup_nil, rfl, hc, he⟩

lemma padLoop_start (m st : ℕ) (fu i : ℕ) (used : List PyStr) (s : PyStr)
    (hc : CleanInv s) (he : s = [] ∨ pyEndsWith s "。".data = true)
    (hused : ∀ u ∈ used, u <:+: s) :
    s <+: padLoop m st i fu used s := by
  obtain ⟨fs, _, _, h3, _, _⟩ := padLoop_decomp m st fu i used s hc he hused
  rw [h3]
  exact foldl_appendSent_start fs s

lemma padLoop_all_infix (m st : ℕ) : ∀ (fu i : ℕ) (used : List PyStr) (s : PyStr),
    CleanInv s → (s = [] ∨ pyEndsWith s "。".data = true) →
    (∀ u ∈ used, u <:+: s) →
    lenNoNL (padLoop m st i fu used s) < m →
    ∀ i', i ≤ i' → i' < i + fu → i' < fillers.length * 2 →
      fillers.getD ((st + i') % fillers.length) [] <:+: padLoop m st i fu used s := by
  intro fu
  induction fu with
  | zero =>
    intro i used s _ _ _ _ i' h1 h2 _
    omega
  | succ fu ih =>
    intro i used s hc he hused hshort i' h1 h2 h3
    rw [padLoop] at hshort ⊢
    by_cases hcond : lenNoNL s < m ∧ i < fillers.length * 2
    · rw [if_pos hcond] at hshort ⊢
      set cand := fillers.getD ((st + i) % fillers.length) [] with hcand
      have hcmem : cand ∈ fillers := getD_mem_fillers _
      by_cases hskip : (pyHasSub s cand || used.contains cand) = true
      · rw [if_pos hskip] at hshort ⊢
        by_cases hi' : i' = i
        · rw [hi']
          have hinfs : cand <:+: s := by
            rcases Bool.or_eq_true _ _ |>.mp hskip with h | h
            · exact of_decide_eq_true h
            · exact hused cand (List.elem_iff.mp h)
          exact hinfs.trans
            (padLoop_start m st fu (i + 1) used s hc he hused).isInfix
        · exact ih (i + 1) used s hc he hused hshort i' (by omega) (by omega) h3
      · rw [if_neg hskip] at hshort ⊢
        have hseq : appendSent s cand = s ++ cand := appendSent_eq he
        obtain ⟨hci', hend'⟩ := filler_append_props hc he hcmem
        have hc' : CleanInv (appendSent s cand) := by rw [hseq]; exact hci'
        have he' : appendSent s cand = [] ∨
            pyEndsWith (appendSent s cand) "。".data = true := by
          rw [hseq]; exact Or.inr hend'
        have hused' : ∀ u ∈ cand :: used, u <:+: appendSent s cand := by
          intro u hu
          rw [hseq]
          rcases List.mem_cons.mp hu with rfl | hu2
          · exact ⟨s, [], by simp⟩
          · exact (hused u hu2).trans ⟨[], cand, by simp⟩
        by_cases hi' : i' = i
        · rw [hi']
          have h4 : cand <:+: appendSent s cand := by
            rw [hseq]
            exact ⟨s, [], by simp⟩
          exact h4.trans (padLoop_start m st fu (i + 1) (cand :: used)
            (appendSent s cand) hc' he' hused').isInfix
        · exact ih (i + 1) (cand :: used) (appendSent s cand) hc' he' hused'
            hshort i' (by omega) (by omega) h3
    · rw [if_neg hcond] at hshort ⊢
      omega

lemma padLoop_noop (m st : ℕ) : ∀ (fu i : ℕ) (used : List PyStr) (s : PyStr),
    (∀ cand ∈ fillers, cand <:+: s) →
    padLoop m st i fu used s = s := by
  intro fu
  induction fu with
  | zero => intro i used s _; rfl
  | succ fu ih =>
    intro i used s hall
    rw [padLoop]
    by_cases hcond : lenNoNL s < m ∧ i < fillers.length * 2
    · rw [if_pos hcond]
      have hmem : fillers.getD ((st + i) % fillers.length) [] ∈ fillers :=
        getD_mem_fillers _
      rw [if_pos (by
        rw [Bool.or_eq_true]
        exact Or.inl (decide_eq_true (hall _ hmem)))]
      exact ih (i + 1) used s hall
    · rw [if_neg hcond]

lemma pad_base_eq_high {st m : ℕ} {x : PyStr} (h : m ≤ lenNoNL (padNormalize x)) :
    _pad_para2_base st m x = padNormalize x := by
  unfold _pad_para2_base
  rw [if_pos h]

lemma pad_base_eq_low {st m : ℕ} {x : PyStr} (h : ¬ m ≤ lenNoNL (padNormalize x)) :
    _pad_para2_base st m x = _clean_text_jp_safe
      (padLoop m st 0 (fillers.length * 2) [] (padNormalize x)) := by
  unfold _pad_para2_base
  rw [if_neg h]

/-- C7 (amended): about `_pad_para2_base` (the padding routine that matches
the spec's description), for every start index and minimum: (1) a paragraph
already in normal form (stripped, cleaned, `。`-terminated) that meets the
minimum is returned unchanged; (2) the pad is idempotent; (3) when padding
happens, fillers are only appended — the output is the normalised input
followed by a duplicate-free batch of fillers, none of which was already
present as a substring.  (The literal claim fails only in that an
un-normalised input is first normalised, see `pad_para2_base_noop_cex`.) -/
theorem pad_para2_base_props (st m : ℕ) (x : PyStr) :
    (padNormalize x = x → m ≤ lenNoNL x → _pad_para2_base st m x = x) ∧
    _pad_para2_base st m (_pad_para2_base st m x) = _pad_para2_base st m x ∧
    ∃ fs : List PyStr,
      (∀ f ∈ fs, f ∈ fillers ∧ ¬ f <:+: padNormalize x) ∧ fs.Nodup ∧
      _pad_para2_base st m x = List.foldl appendSent (padNormalize x) fs := by
  have hs0 := padNormalize_props x
  have conj1 : padNormalize x = x → m ≤ lenNoNL x → _pad_para2_base st m x = x := by
    intro hnorm hlen
    rw [pad_base_eq_high (by rw [hnorm]; exact hlen), hnorm]
  by_cases hcase : m ≤ lenNoNL (padNormalize x)
  · have hA := @pad_base_eq_high st m x hcase
    refine ⟨conj1, ?_, [], by simp, List.nodup_nil, by rw [hA]; rfl⟩
    rw [hA]
    have hfix : padNormalize (padNormalize x) = padNormalize x :=
      padNormalize_fix hs0.1 hs0.2
    rw [pad_base_eq_high (by rw [hfix]; exact hcase), hfix]
  · obtain ⟨fs, hfs1, hfs2, hfs3, hfs4, hfs5⟩ :=
      padLoop_decomp m st (fillers.length * 2) 0 [] (padNormalize x)
        hs0.1 hs0.2 (by simp)
    have hcln : _clean_text_jp_safe
        (padLoop m st 0 (fillers.length * 2) [] (padNormalize x))
        = padLoop m st 0 (fillers.length * 2) [] (padNormalize x) :=
      clean_safe_id hfs4 (hfs5.imp_right endsSentence_of_maru)
    have hB : _pad_para2_base st m x
        = padLoop m st 0 (fillers.length * 2) [] (padNormalize x) := by
      rw [pad_base_eq_low hcase, hcln]
    refine ⟨conj1, ?_, fs, hfs1, hfs2, hB.trans hfs3⟩
    rw [hB]
    have hfixlo : padNormalize (padLoop m st 0 (fillers.length * 2) []
        (padNormalize x)) = padLoop m st 0 (fillers.length * 2) []
        (padNormalize x) := padNormalize_fix hfs4 hfs5
    by_cases h2 : m ≤ lenNoNL (padLoop m st 0 (fillers.length * 2) []
        (padNormalize x))
    · rw [pad_base_eq_high (by rw [hfixlo]; exact h2), hfixlo]
    · rw [pad_base_eq_low (by rw [hfixlo]; exact h2), hfixlo]
      have hall : ∀ cand ∈ fillers,
          cand <:+: padLoop m st 0 (fillers.length * 2) [] (padNormalize x) := by
        intro cand hcmem
        obtain ⟨j, hj, hjeq⟩ := List.mem_iff_getElem.mp hcmem
        have hflen : fillers.length = 4 := by decide
        have hidx : (st + (j + 4 - st % 4) % 4) % 4 = j := by omega
        have hinf := padLoop_all_infix m st (fillers.length * 2) 0 []
          (padNormalize x) hs0.1 hs0.2 (by simp) (by omega)
          ((j + 4 - st % 4) % 4) (by omega) (by rw [hflen]; omega)
          (by rw [hflen]; omega)
        rw [hflen, hidx] at hinf
        rw [← hjeq]
        have hgd : fillers.getD j [] = fillers[j] := by
          rw [List.getD_eq_getElem?_getD, List.getElem?_eq_getElem hj]
          rfl
        rw [← hgd]
        exact hinf
      rw [padLoop_noop m st _ _ _ _ hall, hcln]

set_option maxRecDepth 80000 in
/-- C7 counterexample: a 180-character paragraph already meets the minimum
180, yet the pad operation returns it with an extra `。` appended — not
unchanged. -/
theorem pad_para2_base_noop_cex :
    180 ≤ lenNoNL (List.replicate 180 'あ') ∧
    _pad_para2_base 0 180 (List.replicate 180 'あ') ≠ List.replicate 180 'あ' := by
  decide

/-- Witness for C7 (amended) on the normalised two-character paragraph
`あ。` with minimum 1. -/
theorem pad_para2_base_witness :
    _pad_para2_base 0 1 "あ。".data = "あ。".data :=
  (pad_para2_base_props 0 1 "あ。".data).1 (by decide) (by decide)

lemma takeWhile_append_of_all {p : Char → Bool} :
    ∀ {ds X : PyStr}, (∀ c ∈ ds, p c = true) →
    X.head?.all (fun c => !p c) = true →
    (ds ++ X).takeWhile p = ds ∧ (ds ++ X).dropWhile p = X := by
  intro ds
  induction ds with
  | nil =>
    intro X _ hX
    rcases X with _ | ⟨c, t⟩
    · exact ⟨rfl, rfl⟩
    · rw [List.head?_cons, Option.all_some] at hX
      simp only [Bool.not_eq_true'] at hX
      constructor
      · rw [List.nil_append, List.takeWhile_cons, hX]
        simp
      · rw [List.nil_append, List.dropWhile_cons, hX]
        simp
  | cons d ds ih =>
    intro X hall hX
    have hd : p d = true := hall d (List.mem_cons_self _ _)
    obtain ⟨h1, h2⟩ := ih (fun c hc => hall c (List.mem_cons_of_mem _ hc)) hX
    constructor
    · rw [List.cons_append, List.takeWhile_cons, hd]
      simp [h1]
    · rw [List.cons_append, List.dropWhile_cons, hd]
      simp [h2]

lemma tryVerbs_some_structure : ∀ (vs : List PyStr) (t v : PyStr) (rest : PyStr),
    tryVerbs vs t = some (v, rest) → v ∈ vs ∧ t = v ++ rest := by
  intro vs
  induction vs with
  | nil => intro t v rest h; simp [tryVerbs] at h
  | cons w ws ih =>
    intro t v rest h
    rw [tryVerbs] at h
    by_cases hp : decide (w <+: t) = true
    · rw [if_pos hp] at h
      obtain ⟨t', rfl⟩ := of_decide_eq_true hp
      simp only [Option.some.injEq, Prod.mk.injEq] at h
      obtain ⟨rfl, hrest⟩ := h
      rw [List.drop_left] at hrest
      subst hrest
      exact ⟨List.mem_cons_self _ _, rfl⟩
    · rw [if_neg hp] at h
      obtain ⟨hmem, ht⟩ := ih t v rest h
      exact ⟨List.mem_cons_of_mem _ hmem, ht⟩

lemma verbs_all_facts : ∀ v ∈ verbAlts, v ≠ [] ∧
    (∀ c ∈ v, isPyDigit c = false ∧ c ≠ '約' ∧ c ≠ '％' ∧ isWordChar c = true ∧
      c ≠ '0' ∧ c ≠ ':') ∧
    (∀ c, v.head? = some c → c ≠ 'ほ') := by decide

lemma tryVerbs_self : ∀ v ∈ verbAlts, ∀ u, tryVerbs verbAlts (v ++ u) = some (v, u) := by
  intro v hv u
  simp only [verbAlts, List.mem_cons, List.not_mem_nil, or_false] at hv
  rcases hv with rfl | rfl | rfl | rfl | rfl <;>
    simp [tryVerbs, verbAlts, List.cons_prefix_cons, List.prefix_append,
      List.drop_left]

lemma fracTake_structure : ∀ t fs r2, fracTake t = (fs, r2) →
    t = fs ++ r2 ∧
    (fs = [] ∨ ∃ ds2, fs = '.' :: ds2 ∧ ds2 ≠ [] ∧ (∀ c ∈ ds2, isPyDigit c = true)) := by
  intro t fs r2 h
  rw [fracTake.eq_def] at h
  split at h
  next r =>
    by_cases hds : r.takeWhile isPyDigit = []
    · rw [if_pos hds] at h
      injection h with h1 h2
      subst h1; subst h2
      exact ⟨rfl, Or.inl rfl⟩
    · rw [if_neg hds] at h
      injection h with h1 h2
      subst h1; subst h2
      refine ⟨?_, Or.inr ⟨r.takeWhile isPyDigit, rfl, hds, ?_⟩⟩
      · simp [List.takeWhile_append_dropWhile]
      · intro c hc; exact List.mem_takeWhile_imp hc
  next =>
    injection h with h1 h2
    subst h1; subst h2
    exact ⟨rfl, Or.inl rfl⟩

lemma matchPctHodo_structure : ∀ t rep rest, matchPctHodo t = some (rep, rest) →
    ∃ ds fs v, rep = '約' :: ds ++ fs ++ '%' :: v ∧
      t = ds ++ fs ++ '%' :: 'ほ' :: 'ど' :: v ++ rest ∧
      ds ≠ [] ∧ (∀ c ∈ ds, isPyDigit c = true) ∧
      (fs = [] ∨ ∃ ds2, fs = '.' :: ds2 ∧ ds2 ≠ [] ∧ (∀ c ∈ ds2, isPyDigit c = true)) ∧
      v ∈ verbAlts := by
  intro t rep rest h
  simp only [matchPctHodo] at h
  split at h
  next hds => exact absurd h (by simp)
  next hds =>
    split at h
    next r3 hfr2 =>
      split at h
      next vr hv =>
        injection h with h'
        injection h' with h1 h2
        obtain ⟨hmem, hr3⟩ := tryVerbs_some_structure _ _ _ _ hv
        have hfr' : fracTake (t.dropWhile isPyDigit) =
            ((fracTake (t.dropWhile isPyDigit)).1, '%' :: 'ほ' :: 'ど' :: r3) := by
          rw [← hfr2]
        obtain ⟨hsplit, hfs⟩ := fracTake_structure _ _ _ hfr'
        refine ⟨t.takeWhile isPyDigit, (fracTake (t.dropWhile isPyDigit)).1, vr.1,
          h1.symm, ?_, hds, ?_, hfs, hmem⟩
        · subst h2
          rw [hr3] at hsplit
          conv_lhs => rw [← List.takeWhile_append_dropWhile (p := isPyDigit) (l := t),
            hsplit]
          simp
        · intro c hc; exact List.mem_takeWhile_imp hc
      next hv => exact absurd h (by simp)
    next hfr2 => exact absurd h (by simp)

lemma matchPctHodo_none_of_head : ∀ t : PyStr,
    t.head?.all (fun c => !isPyDigit c) = true → matchPctHodo t = none := by
  intro t ht
  have htw : t.takeWhile isPyDigit = [] := by
    rcases t with _ | ⟨c, r⟩
    · rfl
    · rw [List.head?_cons, Option.all_some] at ht
      simp only [Bool.not_eq_true'] at ht
      simp [List.takeWhile_cons, ht]
  simp [matchPctHodo, htw]

lemma fracTake_nondot : ∀ t : PyStr,
    t.head?.all (fun c => decide (c ≠ '.')) = true → fracTake t = ([], t) := by
  intro t ht
  rw [fracTake.eq_def]
  split
  next r =>
    rw [List.head?_cons, Option.all_some] at ht
    simp at ht
  next => rfl

lemma fracTake_dot : ∀ (ds2 X : PyStr), (∀ c ∈ ds2, isPyDigit c = true) →
    X.head?.all (fun c => !isPyDigit c) = true → ds2 ≠ [] →
    fracTake ('.' :: (ds2 ++ X)) = ('.' :: ds2, X) := by
  intro ds2 X hdig hX hne
  obtain ⟨htw, hdw⟩ := takeWhile_append_of_all hdig hX
  rw [fracTake]
  rw [htw, hdw, if_neg hne]

lemma matchPctHodo_trans : ∀ ds fs v : PyStr, ds ≠ [] →
    (∀ c ∈ ds, isPyDigit c = true) →
    (fs = [] ∨ ∃ ds2, fs = '.' :: ds2 ∧ ds2 ≠ [] ∧ (∀ c ∈ ds2, isPyDigit c = true)) →
    v ∈ verbAlts →
    ∀ u, matchPctHodo (ds ++ (fs ++ ('%' :: 'ほ' :: 'ど' :: (v ++ u)))) =
      some ('約' :: ds ++ fs ++ '%' :: v, u) := by
  intro ds fs v hne hdig hfs hv u
  have hX : (fs ++ ('%' :: 'ほ' :: 'ど' :: (v ++ u))).head?.all
      (fun c => !isPyDigit c) = true := by
    rcases hfs with rfl | ⟨ds2, rfl, _, _⟩ <;> simp [isPyDigit]
  obtain ⟨htw, hdw⟩ := takeWhile_append_of_all hdig hX
  simp only [matchPctHodo, htw, hdw, if_neg hne]
  rcases hfs with rfl | ⟨ds2, rfl, hne2, hdig2⟩
  · rw [List.nil_append, fracTake_nondot _ (by simp)]
    simp [tryVerbs_self v hv u]
  · rw [List.cons_append,
      fracTake_dot ds2 ('%' :: 'ほ' :: 'ど' :: (v ++ u)) hdig2 (by simp [isPyDigit]) hne2]
    simp [tryVerbs_self v hv u]

lemma consumed_yaku_free : ∀ ds fs v : PyStr,
    (∀ c ∈ ds, isPyDigit c = true) →
    (fs = [] ∨ ∃ ds2, fs = '.' :: ds2 ∧ ds2 ≠ [] ∧ (∀ c ∈ ds2, isPyDigit c = true)) →
    v ∈ verbAlts →
    ∀ c ∈ ds ++ fs ++ '%' :: 'ほ' :: 'ど' :: v, c ≠ '約' := by
  intro ds fs v hdig hfs hv c hc
  have hdigy : ∀ x : Char, isPyDigit x = true → x ≠ '約' := by
    intro x hx he; subst he; exact absurd hx (by decide)
  rw [List.append_assoc, List.mem_append, List.mem_append] at hc
  rcases hc with hc | hc | hc
  · exact hdigy c (hdig c hc)
  · rcases hfs with rfl | ⟨ds2, rfl, _, hdig2⟩
    · simp at hc
    · rcases List.mem_cons.1 hc with rfl | hc2
      · decide
      · exact hdigy c (hdig2 c hc2)
  · rcases List.mem_cons.1 hc with rfl | hc
    · decide
    rcases List.mem_cons.1 hc with rfl | hc
    · decide
    rcases List.mem_cons.1 hc with rfl | hc
    · decide
    · exact ((verbs_all_facts v hv).2.1 c hc).2.1

lemma matchPctHodo_block : ∀ w b rep rest : PyStr,
    matchPctHodo (w ++ '約' :: b) = some (rep, rest) →
    ∃ ds fs v w', w = ds ++ fs ++ '%' :: 'ほ' :: 'ど' :: v ++ w' ∧
      rest = w' ++ '約' :: b ∧
      ds ≠ [] ∧ (∀ c ∈ ds, isPyDigit c = true) ∧
      (fs = [] ∨ ∃ ds2, fs = '.' :: ds2 ∧ ds2 ≠ [] ∧ (∀ c ∈ ds2, isPyDigit c = true)) ∧
      v ∈ verbAlts := by
  intro w b rep rest h
  obtain ⟨ds, fs, v, hrep, ht, hne, hdig, hfs, hv⟩ := matchPctHodo_structure _ _ _ h
  set con := ds ++ fs ++ '%' :: 'ほ' :: 'ど' :: v with hcon
  have ht' : con ++ rest = w ++ '約' :: b := ht.symm
  have hcf : ∀ c ∈ con, c ≠ '約' := consumed_yaku_free ds fs v hdig hfs hv
  have hlen : con.length ≤ w.length := by
    by_contra hlt
    push_neg at hlt
    have q1 : (con ++ rest)[w.length]? = some '約' := by
      rw [ht', List.getElem?_append_right (le_refl w.length)]
      simp
    have q2 : (con ++ rest)[w.length]? = con[w.length]? := by
      rw [List.getElem?_append, if_pos hlt]
    rw [q2] at q1
    have hmem : '約' ∈ con := by
      have := List.getElem?_eq_some.1 q1
      obtain ⟨hb, hg⟩ := this
      exact hg ▸ List.getElem_mem hb
    exact hcf _ hmem rfl
  have htake : con = w.take con.length := by
    have h2 := congrArg (List.take con.length) ht'
    rw [List.take_left, List.take_append_of_le_length hlen] at h2
    exact h2
  have hdrop : rest = w.drop con.length ++ '約' :: b := by
    have h3 := congrArg (List.drop con.length) ht'
    rw [List.drop_left, List.drop_append_of_le_length hlen] at h3
    exact h3
  refine ⟨ds, fs, v, w.drop con.length, ?_, hdrop, hne, hdig, hfs, hv⟩
  conv_lhs => rw [← List.take_append_drop con.length w, ← htake]

lemma matchPctHodo_congr_none : ∀ w z b : PyStr,
    matchPctHodo (w ++ z) = none → matchPctHodo (w ++ '約' :: b) = none := by
  intro w z b h
  match h2 : matchPctHodo (w ++ '約' :: b) with
  | none => rfl
  | some pr =>
    obtain ⟨ds, fs, v, w', hw, _, hne, hdig, hfs, hv⟩ :=
      matchPctHodo_block w b pr.1 pr.2 (by rw [h2])
    have := matchPctHodo_trans ds fs v hne hdig hfs hv (w' ++ z)
    rw [show ds ++ (fs ++ ('%' :: 'ほ' :: 'ど' :: (v ++ (w' ++ z)))) = w ++ z by
      rw [hw]; simp [List.append_assoc]] at this
    rw [this] at h
    exact absurd h (by simp)

lemma sub3Fuel_divergence : ∀ (f : ℕ) (r : PyStr), sub3Fuel f r = r ∨
    ∃ p a b, r = p ++ a ∧ sub3Fuel f r = p ++ '約' :: b := by
  intro f
  induction f with
  | zero => intro r; exact Or.inl rfl
  | succ k ih =>
    intro r
    rcases r with _ | ⟨c, r'⟩
    · exact Or.inl rfl
    · match hm : matchPctHodo (c :: r') with
      | some pr =>
        obtain ⟨ds, fs, v, hrep, _, _, _, _, _⟩ :=
          matchPctHodo_structure _ pr.1 pr.2 (by rw [hm])
        right
        refine ⟨[], c :: r', ds ++ fs ++ '%' :: v ++ sub3Fuel k pr.2, rfl, ?_⟩
        rw [sub3Fuel, hm]
        show pr.1 ++ sub3Fuel k pr.2 = _
        rw [hrep]
        simp [List.append_assoc]
      | none =>
        rcases ih r' with heq | ⟨p, a, b, h1, h2⟩
        · left
          rw [sub3Fuel, hm]
          show c :: sub3Fuel k r' = _
          rw [heq]
        · right
          refine ⟨c :: p, a, b, by rw [h1]; rfl, ?_⟩
          rw [sub3Fuel, hm]
          show c :: sub3Fuel k r' = _
          rw [h2]
          rfl

lemma matchPctHodo_none_sub3 : ∀ (c : Char) (r : PyStr) (f : ℕ),
    matchPctHodo (c :: r) = none → matchPctHodo (c :: sub3Fuel f r) = none := by
  intro c r f h
  rcases sub3Fuel_divergence f r with heq | ⟨p, a, b, h1, h2⟩
  · rw [heq]; exact h
  · rw [h2, show c :: (p ++ '約' :: b) = (c :: p) ++ '約' :: b from rfl]
    apply matchPctHodo_congr_none (c :: p) a b
    rw [List.cons_append, ← h1]
    exact h

lemma sub3Fuel_nil : ∀ f : ℕ, sub3Fuel f [] = [] := by
  intro f; cases f <;> rfl

lemma sub3Fuel_congr : ∀ (n : ℕ) (r : PyStr), r.length ≤ n →
    ∀ f g : ℕ, r.length ≤ f → r.length ≤ g → sub3Fuel f r = sub3Fuel g r := by
  intro n
  induction n with
  | zero =>
    intro r hr f g _ _
    have : r = [] := List.length_eq_zero.1 (Nat.le_zero.1 hr)
    subst this
    rw [sub3Fuel_nil, sub3Fuel_nil]
  | succ n ih =>
    intro r hr f g hf hg
    rcases r with _ | ⟨c, r'⟩
    · rw [sub3Fuel_nil, sub3Fuel_nil]
    · rcases f with _ | f'
      · simp at hf
      rcases g with _ | g'
      · simp at hg
      rw [sub3Fuel, sub3Fuel]
      match hm : matchPctHodo (c :: r') with
      | some pr =>
        obtain ⟨ds, fs, v, _, ht, hne, _, _, hv⟩ :=
          matchPctHodo_structure _ pr.1 pr.2 (by rw [hm])
        have hlen : pr.2.length + 4 ≤ r'.length + 1 := by
          have := congrArg List.length ht
          simp only [List.length_cons, List.length_append] at this
          have h1 : 1 ≤ ds.length := List.length_pos.2 hne
          have h2 : 1 ≤ v.length := List.length_pos.2 (verbs_all_facts v hv).1
          omega
        have hr2 : pr.2.length ≤ n := by
          simp only [List.length_cons] at hr
          omega
        show pr.1 ++ sub3Fuel f' pr.2 = pr.1 ++ sub3Fuel g' pr.2
        rw [ih pr.2 hr2 f' g' (by simp only [List.length_cons] at hf; omega)
          (by simp only [List.length_cons] at hg; omega)]
      | none =>
        show c :: sub3Fuel f' r' = c :: sub3Fuel g' r'
        rw [ih r' (by simp only [List.length_cons] at hr; omega)
          f' g' (by simp only [List.length_cons] at hf; omega)
          (by simp only [List.length_cons] at hg; omega)]

/-- The fuel `s.length` given to `sub3Fuel` by `sub3` is enough: any larger
fuel computes the same value. -/
lemma sub3Fuel_eq_of_le : ∀ (f : ℕ) (s : PyStr), s.length ≤ f →
    sub3Fuel f s = sub3 s := by
  intro f s hf
  exact sub3Fuel_congr s.length s (le_refl _) f s.length hf (le_refl _)

lemma matchPctHodo_none_repseg : ∀ dsx fs v X : PyStr, dsx ≠ [] →
    (∀ c ∈ dsx, isPyDigit c = true) →
    (fs = [] ∨ ∃ ds2, fs = '.' :: ds2 ∧ ds2 ≠ [] ∧ (∀ c ∈ ds2, isPyDigit c = true)) →
    v ∈ verbAlts →
    matchPctHodo (dsx ++ (fs ++ ('%' :: (v ++ X)))) = none := by
  intro dsx fs v X hne hdig hfs hv
  obtain ⟨hvne, _, hvh⟩ := verbs_all_facts v hv
  rcases v with _ | ⟨v₀, v'⟩
  · exact absurd rfl hvne
  have hv₀ : v₀ ≠ 'ほ' := hvh v₀ rfl
  have hX : (fs ++ ('%' :: (v₀ :: v' ++ X))).head?.all (fun c => !isPyDigit c) = true := by
    rcases hfs with rfl | ⟨ds2, rfl, _, _⟩ <;> simp [isPyDigit]
  obtain ⟨htw, hdw⟩ := takeWhile_append_of_all hdig hX
  simp only [matchPctHodo, htw, hdw, if_neg hne]
  rcases hfs with rfl | ⟨ds2, rfl, hne2, hdig2⟩
  · rw [List.nil_append, fracTake_nondot _ (by simp)]
    simp only [List.cons_append]
    split
    next r3 heq =>
      rw [List.cons.injEq, List.cons.injEq] at heq
      exact absurd heq.2.1 hv₀
    next => rfl
  · rw [List.cons_append,
      fracTake_dot ds2 ('%' :: (v₀ :: v' ++ X)) hdig2 (by simp [isPyDigit]) hne2]
    simp only [List.cons_append]
    split
    next r3 heq =>
      rw [List.cons.injEq, List.cons.injEq] at heq
      exact absurd heq.2.1 hv₀
    next => rfl

lemma sub3_pass_nondigit : ∀ (seg : PyStr), (∀ c ∈ seg, isPyDigit c = false) →
    ∀ (f : ℕ) (X : PyStr), seg.length ≤ f →
    sub3Fuel f (seg ++ X) = seg ++ sub3Fuel (f - seg.length) X := by
  intro seg
  induction seg with
  | nil => intro _ f X _; simp
  | cons c seg' ih =>
    intro hnd f X hf
    rcases f with _ | f'
    · simp at hf
    · rw [List.cons_append, sub3Fuel,
        matchPctHodo_none_of_head _ (by simp [hnd c (List.mem_cons_self _ _)])]
      show c :: sub3Fuel f' (seg' ++ X) = _
      rw [ih (fun x hx => hnd x (List.mem_cons_of_mem _ hx)) f' X
        (by simp only [List.length_cons] at hf; omega)]
      simp [Nat.succ_sub_succ]

lemma sub3_pass_dseg : ∀ (dsx : PyStr), dsx ≠ [] → (∀ c ∈ dsx, isPyDigit c = true) →
    ∀ (v : PyStr), v ∈ verbAlts → ∀ (f : ℕ) (X : PyStr),
    dsx.length + 1 + v.length ≤ f →
    sub3Fuel f (dsx ++ ('%' :: (v ++ X))) =
      dsx ++ ('%' :: (v ++ sub3Fuel (f - (dsx.length + 1 + v.length)) X)) := by
  intro dsx
  induction dsx with
  | nil => intro h; exact absurd rfl h
  | cons d dsx' ih =>
    intro _ hdig v hv f X hf
    rcases f with _ | f'
    · simp at hf
    have hnone : matchPctHodo ((d :: dsx') ++ ('%' :: (v ++ X))) = none := by
      simpa using matchPctHodo_none_repseg (d :: dsx') [] v X (by simp) hdig (Or.inl rfl) hv
    have hvnd : ∀ c ∈ '%' :: v, isPyDigit c = false := by
      intro c hc
      rcases List.mem_cons.1 hc with rfl | hc
      · decide
      · exact ((verbs_all_facts v hv).2.1 c hc).1
    rcases dsx' with _ | ⟨d2, dsx''⟩
    · simp only [List.singleton_append] at hnone ⊢
      rw [sub3Fuel, hnone]
      show d :: sub3Fuel f' ('%' :: (v ++ X)) = _
      rw [show ('%' :: (v ++ X)) = ('%' :: v) ++ X from by simp,
        sub3_pass_nondigit ('%' :: v) hvnd f' X
          (by simp only [List.length_cons, List.length_nil, List.length_cons] at hf ⊢; omega)]
      have harith : f' - ('%' :: v).length = f' + 1 - ([d].length + 1 + v.length) := by
        simp only [List.length_cons, List.length_cons, List.length_nil]
        omega
      rw [harith]
      simp
    · rw [List.cons_append, sub3Fuel, ← List.cons_append, hnone]
      show d :: sub3Fuel f' ((d2 :: dsx'') ++ ('%' :: (v ++ X))) = _
      rw [ih (by simp) (fun x hx => hdig x (List.mem_cons_of_mem _ hx)) v hv f' X
        (by simp only [List.length_cons] at hf ⊢; omega)]
      have harith : f' - ((d2 :: dsx'').length + 1 + v.length) =
          f' + 1 - ((d :: d2 :: dsx'').length + 1 + v.length) := by
        simp only [List.length_cons]
        omega
      rw [harith]
      simp

lemma sub3_pass_dfrac : ∀ (dsx : PyStr), dsx ≠ [] → (∀ c ∈ dsx, isPyDigit c = true) →
    ∀ (ds2 : PyStr), ds2 ≠ [] → (∀ c ∈ ds2, isPyDigit c = true) →
    ∀ (v : PyStr), v ∈ verbAlts → ∀ (f : ℕ) (X : PyStr),
    dsx.length + 1 + ds2.length + 1 + v.length ≤ f →
    sub3Fuel f (dsx ++ ('.' :: (ds2 ++ ('%' :: (v ++ X))))) =
      dsx ++ ('.' :: (ds2 ++ ('%' :: (v ++
        sub3Fuel (f - (dsx.length + 1 + ds2.length + 1 + v.length)) X)))) := by
  intro dsx
  induction dsx with
  | nil => intro h; exact absurd rfl h
  | cons d dsx' ih =>
    intro _ hdig ds2 hne2 hdig2 v hv f X hf
    rcases f with _ | f'
    · simp at hf
    have hnone : matchPctHodo ((d :: dsx') ++ (('.' :: ds2) ++ ('%' :: (v ++ X)))) = none :=
      matchPctHodo_none_repseg (d :: dsx') ('.' :: ds2) v X (by simp) hdig
        (Or.inr ⟨ds2, rfl, hne2, hdig2⟩) hv
    rcases dsx' with _ | ⟨d2, dsx''⟩
    · simp only [List.singleton_append] at hnone ⊢
      rw [sub3Fuel, show ('.' :: (ds2 ++ ('%' :: (v ++ X)))) =
        ('.' :: ds2) ++ ('%' :: (v ++ X)) from by simp, hnone]
      show d :: sub3Fuel f' (('.' :: ds2) ++ ('%' :: (v ++ X))) = _
      rcases f' with _ | f''
      · exfalso
        simp only [List.length_cons, List.length_nil, List.length_cons] at hf
        have := List.length_pos.2 hne2
        omega
      rw [List.cons_append, sub3Fuel,
        matchPctHodo_none_of_head _ (by simp [isPyDigit])]
      show d :: '.' :: sub3Fuel f'' (ds2 ++ ('%' :: (v ++ X))) = _
      rw [sub3_pass_dseg ds2 hne2 hdig2 v hv f'' X
        (by simp only [List.length_cons, List.length_nil, List.length_cons] at hf ⊢; omega)]
      have harith : f'' - (ds2.length + 1 + v.length) =
          f'' + 1 + 1 - ([d].length + 1 + ds2.length + 1 + v.length) := by
        simp only [List.length_cons, List.length_cons, List.length_nil]
        omega
      rw [harith]
    · rw [List.cons_append, sub3Fuel, ← List.cons_append,
        show ('.' :: (ds2 ++ ('%' :: (v ++ X)))) =
          ('.' :: ds2) ++ ('%' :: (v ++ X)) from by simp, hnone]
      show d :: sub3Fuel f' ((d2 :: dsx'') ++ (('.' :: ds2) ++ ('%' :: (v ++ X)))) = _
      rw [show ('.' :: ds2) ++ ('%' :: (v ++ X)) =
        '.' :: (ds2 ++ ('%' :: (v ++ X))) from by simp]
      rw [ih (by simp) (fun x hx => hdig x (List.mem_cons_of_mem _ hx)) ds2 hne2 hdig2
        v hv f' X (by simp only [List.length_cons] at hf ⊢; omega)]
      have harith : f' - ((d2 :: dsx'').length + 1 + ds2.length + 1 + v.length) =
          f' + 1 - ((d :: d2 :: dsx'').length + 1 + ds2.length + 1 + v.length) := by
        simp only [List.length_cons]
        omega
      rw [harith]
      simp

lemma sub3_pass_rep : ∀ ds fs v : PyStr, ds ≠ [] →
    (∀ c ∈ ds, isPyDigit c = true) →
    (fs = [] ∨ ∃ ds2, fs = '.' :: ds2 ∧ ds2 ≠ [] ∧ (∀ c ∈ ds2, isPyDigit c = true)) →
    v ∈ verbAlts →
    ∀ (f : ℕ) (X : PyStr), ds.length + fs.length + v.length + 2 ≤ f →
    sub3Fuel f (('約' :: ds ++ fs ++ '%' :: v) ++ X) =
      ('約' :: ds ++ fs ++ '%' :: v) ++
        sub3Fuel (f - (ds.length + fs.length + v.length + 2)) X := by
  intro ds fs v hne hdig hfs hv f X hf
  rcases f with _ | f'
  · omega
  have h0 : (('約' :: ds ++ fs ++ '%' :: v) ++ X) =
      '約' :: (ds ++ (fs ++ ('%' :: (v ++ X)))) := by simp
  rw [h0, sub3Fuel, matchPctHodo_none_of_head _ (by simp [isPyDigit])]
  show '約' :: sub3Fuel f' (ds ++ (fs ++ ('%' :: (v ++ X)))) = _
  rcases hfs with rfl | ⟨ds2, rfl, hne2, hdig2⟩
  · simp only [List.nil_append]
    rw [sub3_pass_dseg ds hne hdig v hv f' X (by simp only [List.length_nil] at hf ⊢; omega)]
    have harith : f' - (ds.length + 1 + v.length) =
        f' + 1 - (ds.length + List.length ([] : PyStr) + v.length + 2) := by
      simp only [List.length_nil]
      omega
    rw [harith]
    simp
  · rw [show (('.' :: ds2) ++ ('%' :: (v ++ X))) =
      '.' :: (ds2 ++ ('%' :: (v ++ X))) from by simp]
    rw [sub3_pass_dfrac ds hne hdig ds2 hne2 hdig2 v hv f' X
      (by simp only [List.length_cons] at hf ⊢; omega)]
    have harith : f' - (ds.length + 1 + ds2.length + 1 + v.length) =
        f' + 1 - (ds.length + ('.' :: ds2).length + v.length + 2) := by
      simp only [List.length_cons]
      omega
    rw [harith]
    simp

lemma sub3_idem_n : ∀ (n : ℕ) (z : PyStr), z.length ≤ n → sub3 (sub3 z) = sub3 z := by
  intro n
  induction n with
  | zero =>
    intro z hz
    have : z = [] := List.length_eq_zero.1 (Nat.le_zero.1 hz)
    subst this
    rfl
  | succ n ih =>
    intro z hz
    rcases z with _ | ⟨c, r⟩
    · rfl
    have hrn : r.length ≤ n := by simp only [List.length_cons] at hz; omega
    match hm : matchPctHodo (c :: r) with
    | some pr =>
      obtain ⟨ds, fs, v, hrep, ht, hned, hdig, hfs, hv⟩ :=
        matchPctHodo_structure _ pr.1 pr.2 (by rw [hm])
      have hlen : pr.2.length + 4 ≤ r.length + 1 := by
        have := congrArg List.length ht
        simp only [List.length_cons, List.length_append] at this
        have h1 : 1 ≤ ds.length := List.length_pos.2 hned
        have h2 : 1 ≤ v.length := List.length_pos.2 (verbs_all_facts v hv).1
        omega
      have hrep_len : pr.1.length = ds.length + fs.length + v.length + 2 := by
        rw [hrep]
        simp only [List.length_cons, List.length_append]
        omega
      have e1 : sub3 (c :: r) = pr.1 ++ sub3 pr.2 := by
        show sub3Fuel (r.length + 1) (c :: r) = _
        rw [sub3Fuel, hm]
        show pr.1 ++ sub3Fuel r.length pr.2 = _
        rw [sub3Fuel_eq_of_le r.length pr.2 (by omega)]
      rw [e1]
      show sub3Fuel (pr.1 ++ sub3 pr.2).length (pr.1 ++ sub3 pr.2) = _
      have hflen : pr.1.length + (sub3 pr.2).length = (pr.1 ++ sub3 pr.2).length := by
        rw [List.length_append]
      rw [show (pr.1 ++ sub3 pr.2) = (('約' :: ds ++ fs ++ '%' :: v) ++ sub3 pr.2) from by
        rw [hrep]]
      rw [sub3_pass_rep ds fs v hned hdig hfs hv _ (sub3 pr.2) (by
        rw [List.length_append, ← hrep_len, hrep]; omega)]
      have harith : (('約' :: ds ++ fs ++ '%' :: v) ++ sub3 pr.2).length -
          (ds.length + fs.length + v.length + 2) = (sub3 pr.2).length := by
        rw [List.length_append, ← hrep, hrep_len]
        omega
      rw [harith]
      have e2 : sub3Fuel (sub3 pr.2).length (sub3 pr.2) = sub3 (sub3 pr.2) := rfl
      rw [e2, ih pr.2 (by omega)]
    | none =>
      have e1 : sub3 (c :: r) = c :: sub3 r := by
        show sub3Fuel (r.length + 1) (c :: r) = _
        rw [sub3Fuel, hm]
        rfl
      rw [e1]
      show sub3Fuel ((sub3 r).length + 1) (c :: sub3 r) = _
      have hK : matchPctHodo (c :: sub3 r) = none := matchPctHodo_none_sub3 c r r.length hm
      rw [sub3Fuel, hK]
      show c :: sub3Fuel (sub3 r).length (sub3 r) = _
      have e2 : sub3Fuel (sub3 r).length (sub3 r) = sub3 (sub3 r) := rfl
      rw [e2, ih r hrn]

lemma sub3_idem : ∀ z : PyStr, sub3 (sub3 z) = sub3 z :=
  fun z => sub3_idem_n z.length z (le_refl _)

lemma word_of_digit : ∀ c : Char, isPyDigit c = true → isWordChar c = true := by
  intro c h
  simp [isWordChar, h]

lemma sub2Go_nofire : ∀ (pw : Bool) (c : Char) (r : PyStr),
    ¬(c = '0' ∧ pw = false ∧ ∃ d r2, r = d :: ':' :: r2 ∧ isPyDigit d = true) →
    sub2Go pw (c :: r) = c :: sub2Go (isWordChar c) r := by
  intro pw c r h
  rw [sub2Go.eq_def]
  split
  next heq => exact absurd heq (by simp)
  next heq =>
    injection heq with hc hr
    rw [if_neg]
    · rw [hc, hr]
    · rintro ⟨hpw, hd⟩
      exact h ⟨hc, hpw, _, _, hr, hd⟩
  next heq =>
    injection heq with hc hr
    subst hc
    subst hr
    rfl

lemma sub2Go_fire : ∀ (d : Char) (r2 : PyStr), isPyDigit d = true →
    sub2Go false ('0' :: d :: ':' :: r2) = d :: ':' :: sub2Go false r2 := by
  intro d r2 hd
  rw [sub2Go, if_pos ⟨rfl, hd⟩]

lemma sub2Go_head_cases : ∀ (pw : Bool) (c : Char) (r : PyStr),
    ∃ c' t', sub2Go pw (c :: r) = c' :: t' ∧ (c' = c ∨ isPyDigit c' = true) := by
  intro pw c r
  by_cases h : c = '0' ∧ pw = false ∧ ∃ d r2, r = d :: ':' :: r2 ∧ isPyDigit d = true
  · obtain ⟨rfl, rfl, d, r2, rfl, hd⟩ := h
    rw [sub2Go_fire d r2 hd]
    exact ⟨d, _, rfl, Or.inr hd⟩
  · rw [sub2Go_nofire pw c r h]
    exact ⟨c, _, rfl, Or.inl rfl⟩

lemma sub2Go_idem_n : ∀ (n : ℕ) (s : PyStr), s.length ≤ n →
    ∀ pw, sub2Go pw (sub2Go pw s) = sub2Go pw s := by
  intro n
  induction n with
  | zero =>
    intro s hs pw
    have : s = [] := List.length_eq_zero.1 (Nat.le_zero.1 hs)
    subst this
    rfl
  | succ n ih =>
    intro s hs pw
    rcases s with _ | ⟨c, r⟩
    · rfl
    have hrn : r.length ≤ n := by simp only [List.length_cons] at hs; omega
    by_cases hfire : c = '0' ∧ pw = false ∧ ∃ d r2, r = d :: ':' :: r2 ∧ isPyDigit d = true
    · obtain ⟨rfl, rfl, d, r2, rfl, hd⟩ := hfire
      rw [sub2Go_fire d r2 hd]
      have h1 : ¬(d = '0' ∧ (false : Bool) = false ∧
          ∃ d' r2', (':' :: sub2Go false r2) = d' :: ':' :: r2' ∧ isPyDigit d' = true) := by
        rintro ⟨-, -, d', r2', heq, hd'⟩
        injection heq with h2 h3
        rw [← h2] at hd'
        exact absurd hd' (by decide)
      rw [sub2Go_nofire false d (':' :: sub2Go false r2) h1, word_of_digit d hd]
      have h2 : ¬((':' : Char) = '0' ∧ (true : Bool) = false ∧
          ∃ d' r2', sub2Go false r2 = d' :: ':' :: r2' ∧ isPyDigit d' = true) := by
        rintro ⟨h', -, -⟩
        exact absurd h' (by decide)
      rw [sub2Go_nofire true ':' (sub2Go false r2) h2]
      have h3 : isWordChar ':' = false := by decide
      rw [h3]
      rw [ih r2 (by simp only [List.length_cons] at hs; omega) false]
    · rw [sub2Go_nofire pw c r hfire]
      by_cases hfire2 : c = '0' ∧ pw = false ∧
          ∃ d S2, sub2Go (isWordChar c) r = d :: ':' :: S2 ∧ isPyDigit d = true
      · exfalso
        obtain ⟨hc0, hpw, d, S2, hS, hd⟩ := hfire2
        have hw0 : isWordChar c = true := by rw [hc0]; decide
        rcases r with _ | ⟨c₁, r'⟩
        · rw [show sub2Go (isWordChar c) [] = [] from rfl] at hS
          exact absurd hS (by simp)
        have hnf1 : ¬(c₁ = '0' ∧ isWordChar c = false ∧
            ∃ d' r2', r' = d' :: ':' :: r2' ∧ isPyDigit d' = true) := by
          rintro ⟨-, hw, -⟩
          rw [hw0] at hw
          exact absurd hw (by simp)
        rw [sub2Go_nofire (isWordChar c) c₁ r' hnf1] at hS
        injection hS with hc₁ hS2
        rcases r' with _ | ⟨c₂, r''⟩
        · rw [show sub2Go (isWordChar c₁) [] = [] from rfl] at hS2
          exact absurd hS2 (by simp)
        obtain ⟨c₂', t', he, hcase⟩ := sub2Go_head_cases (isWordChar c₁) c₂ r''
        rw [he] at hS2
        injection hS2 with hcol htail
        rcases hcase with heq2 | hdig2
        · have hc2 : c₂ = ':' := heq2 ▸ hcol
          exact hfire ⟨hc0, hpw, c₁, r'', by rw [hc2], by rw [hc₁]; exact hd⟩
        · rw [hcol] at hdig2
          exact absurd hdig2 (by decide)
      · rw [sub2Go_nofire pw c (sub2Go (isWordChar c) r) hfire2]
        rw [ih r hrn (isWordChar c)]

lemma sub2_idem : ∀ s : PyStr, sub2 (sub2 s) = sub2 s := by
  intro s
  exact sub2Go_idem_n s.length s (le_refl _) false

lemma zph_no_pct : ∀ (t : PyStr) (c : Char), c ∈ zenPercentToHalf t → c ≠ '％' := by
  intro t c hc
  obtain ⟨x, _, hx⟩ := List.mem_map.1 hc
  by_cases hxp : x == '％'
  · rw [if_pos hxp] at hx
    rw [← hx]
    decide
  · rw [if_neg hxp] at hx
    rw [← hx]
    intro he
    exact hxp (by rw [he]; rfl)

lemma zph_id : ∀ t : PyStr, (∀ c ∈ t, c ≠ '％') → zenPercentToHalf t = t := by
  intro t h
  rw [zenPercentToHalf]
  rw [List.map_congr_left (g := id)]
  · exact List.map_id t
  · intro x hx
    rw [if_neg]
    · rfl
    · intro hb
      exact h x hx (by exact eq_of_beq hb)

lemma sub2Go_subset_n : ∀ (n : ℕ) (s : PyStr), s.length ≤ n →
    ∀ (pw : Bool) (c : Char), c ∈ sub2Go pw s → c ∈ s := by
  intro n
  induction n with
  | zero =>
    intro s hs pw c hc
    have : s = [] := List.length_eq_zero.1 (Nat.le_zero.1 hs)
    subst this
    rw [show sub2Go pw ([] : PyStr) = [] from rfl] at hc
    exact absurd hc (List.not_mem_nil c)
  | succ n ih =>
    intro s hs pw c hc
    rcases s with _ | ⟨a, r⟩
    · rw [show sub2Go pw ([] : PyStr) = [] from rfl] at hc
      exact absurd hc (List.not_mem_nil c)
    by_cases hfire : a = '0' ∧ pw = false ∧ ∃ d r2, r = d :: ':' :: r2 ∧ isPyDigit d = true
    · obtain ⟨rfl, rfl, d, r2, rfl, hd⟩ := hfire
      rw [sub2Go_fire d r2 hd] at hc
      rcases List.mem_cons.1 hc with rfl | hc
      · exact List.mem_cons_of_mem _ (List.mem_cons_self _ _)
      rcases List.mem_cons.1 hc with rfl | hc
      · exact List.mem_cons_of_mem _ (List.mem_cons_of_mem _ (List.mem_cons_self _ _))
      · have hm := ih r2 (by simp only [List.length_cons] at hs; omega) false c hc
        exact List.mem_cons_of_mem _ (List.mem_cons_of_mem _ (List.mem_cons_of_mem _ hm))
    · rw [sub2Go_nofire pw a r hfire] at hc
      rcases List.mem_cons.1 hc with rfl | hc
      · simp
      · exact List.mem_cons_of_mem _
          (ih r (by simp only [List.length_cons] at hs; omega) (isWordChar a) c hc)

lemma sub2Go_subset : ∀ (s : PyStr) (pw : Bool) (c : Char), c ∈ sub2Go pw s → c ∈ s :=
  fun s pw c hc => sub2Go_subset_n s.length s (le_refl _) pw c hc

lemma sub3Fuel_chars : ∀ (f : ℕ) (s : PyStr) (c : Char),
    c ∈ sub3Fuel f s → c ∈ s ∨ c = '約' := by
  intro f
  induction f with
  | zero => intro s c hc; exact Or.inl hc
  | succ k ih =>
    intro s c hc
    rcases s with _ | ⟨a, r⟩
    · exact absurd hc (by simp [sub3Fuel_nil])
    match hm : matchPctHodo (a :: r) with
    | some pr =>
      rw [sub3Fuel, hm] at hc
      have hc' : c ∈ pr.1 ++ sub3Fuel k pr.2 := hc
      obtain ⟨ds, fs, v, hrep, ht, _, _, _, _⟩ :=
        matchPctHodo_structure _ pr.1 pr.2 (by rw [hm])
      rcases List.mem_append.1 hc' with hc1 | hc2
      · rw [hrep] at hc1
        simp only [List.cons_append, List.append_assoc, List.mem_cons,
          List.mem_append] at hc1
        rcases hc1 with rfl | hc1
        · exact Or.inr rfl
        · left
          rw [ht]
          simp only [List.cons_append, List.append_assoc, List.mem_cons,
            List.mem_append]
          tauto
      · rcases ih pr.2 c hc2 with h1 | h1
        · left
          rw [ht]
          simp only [List.append_assoc, List.mem_append, List.cons_append, List.mem_cons]
          tauto
        · exact Or.inr h1
    | none =>
      rw [sub3Fuel, hm] at hc
      have hc' : c ∈ a :: sub3Fuel k r := hc
      rcases List.mem_cons.1 hc' with rfl | hc2
      · exact Or.inl (List.mem_cons_self _ _)
      · rcases ih r c hc2 with h1 | h1
        · exact Or.inl (List.mem_cons_of_mem _ h1)
        · exact Or.inr h1

lemma digit_ne_colon : ∀ c : Char, isPyDigit c = true → c ≠ ':' := by
  intro c h he
  subst he
  exact absurd h (by decide)

lemma sub2Go_ne0 : ∀ (pw : Bool) (c : Char) (X : PyStr), c ≠ '0' →
    sub2Go pw (c :: X) = c :: sub2Go (isWordChar c) X :=
  fun pw c X h => sub2Go_nofire pw c X (by rintro ⟨hc, -⟩; exact h hc)

lemma sub2_pass_digits : ∀ (dsx : PyStr), dsx ≠ [] → (∀ c ∈ dsx, isPyDigit c = true) →
    ∀ (X : PyStr), X.head? ≠ some ':' → X.tail.head? ≠ some ':' →
    ∀ pw, sub2Go pw (dsx ++ X) = dsx ++ sub2Go true X := by
  intro dsx
  induction dsx with
  | nil => intro h; exact absurd rfl h
  | cons d dsx' ih =>
    intro _ hdig X hX1 hX2 pw
    have hd : isPyDigit d = true := hdig d (List.mem_cons_self _ _)
    rcases dsx' with _ | ⟨e, tl⟩
    · rw [List.singleton_append]
      rw [sub2Go_nofire pw d X (by
        rintro ⟨-, -, x, r2, hXe, -⟩
        exact hX2 (by rw [hXe]; rfl))]
      rw [word_of_digit d hd]
      rfl
    · rw [List.cons_append]
      rw [sub2Go_nofire pw d ((e :: tl) ++ X) (by
        rintro ⟨-, -, x, r2, heq, -⟩
        rw [List.cons_append] at heq
        injection heq with he h2
        rcases tl with _ | ⟨f, tl'⟩
        · rw [List.nil_append] at h2
          exact hX1 (by rw [h2]; rfl)
        · rw [List.cons_append] at h2
          injection h2 with hf h3
          exact digit_ne_colon f (hdig f (by simp)) hf)]
      rw [word_of_digit d hd]
      rw [ih (by simp) (fun x hx => hdig x (List.mem_cons_of_mem _ hx)) X hX1 hX2 true]
      rfl

lemma sub2_pass_word : ∀ (seg : PyStr), seg ≠ [] →
    (∀ c ∈ seg, isWordChar c = true ∧ c ≠ '0') →
    ∀ (X : PyStr) (pw : Bool), sub2Go pw (seg ++ X) = seg ++ sub2Go true X := by
  intro seg
  induction seg with
  | nil => intro h; exact absurd rfl h
  | cons w seg' ih =>
    intro _ hfacts X pw
    obtain ⟨hw, hw0⟩ := hfacts w (List.mem_cons_self _ _)
    rw [List.cons_append, sub2Go_ne0 pw w (seg' ++ X) hw0, hw]
    rcases seg' with _ | ⟨w2, tl⟩
    · rfl
    · rw [ih (by simp) (fun x hx => hfacts x (List.mem_cons_of_mem _ hx)) X true]
      rfl

lemma verb_word_facts : ∀ v ∈ verbAlts, v ≠ [] ∧ ∀ c ∈ v, isWordChar c = true ∧ c ≠ '0' := by
  intro v hv
  obtain ⟨h1, h2, _⟩ := verbs_all_facts v hv
  exact ⟨h1, fun c hc => ⟨(h2 c hc).2.2.2.1, (h2 c hc).2.2.2.2.1⟩⟩

lemma sub2_pass_pctverb : ∀ (v u : PyStr) (pw : Bool), v ∈ verbAlts →
    sub2Go pw ('%' :: 'ほ' :: 'ど' :: (v ++ u)) =
      '%' :: 'ほ' :: 'ど' :: (v ++ sub2Go true u) := by
  intro v u pw hv
  rw [sub2Go_ne0 pw '%' _ (by decide),
    sub2Go_ne0 (isWordChar '%') 'ほ' _ (by decide),
    sub2Go_ne0 (isWordChar 'ほ') 'ど' _ (by decide)]
  obtain ⟨hne, hfacts⟩ := verb_word_facts v hv
  rw [sub2_pass_word v hne hfacts u (isWordChar 'ど')]

lemma sub2_pass_pctv : ∀ (v u : PyStr) (pw : Bool), v ∈ verbAlts →
    sub2Go pw ('%' :: (v ++ u)) = '%' :: (v ++ sub2Go true u) := by
  intro v u pw hv
  rw [sub2Go_ne0 pw '%' _ (by decide)]
  obtain ⟨hne, hfacts⟩ := verb_word_facts v hv
  rw [sub2_pass_word v hne hfacts u (isWordChar '%')]

lemma sub2_pass_con : ∀ ds fs v u : PyStr, ds ≠ [] →
    (∀ c ∈ ds, isPyDigit c = true) →
    (fs = [] ∨ ∃ ds2, fs = '.' :: ds2 ∧ ds2 ≠ [] ∧ (∀ c ∈ ds2, isPyDigit c = true)) →
    v ∈ verbAlts → ∀ pw,
    sub2Go pw (ds ++ (fs ++ ('%' :: 'ほ' :: 'ど' :: (v ++ u)))) =
      ds ++ (fs ++ ('%' :: 'ほ' :: 'ど' :: (v ++ sub2Go true u))) := by
  intro ds fs v u hne hdig hfs hv pw
  have hX1 : (fs ++ ('%' :: 'ほ' :: 'ど' :: (v ++ u))).head? ≠ some ':' := by
    rcases hfs with rfl | ⟨ds2, rfl, hne2, hdig2⟩ <;> simp
  have hX2 : (fs ++ ('%' :: 'ほ' :: 'ど' :: (v ++ u))).tail.head? ≠ some ':' := by
    rcases hfs with rfl | ⟨ds2, rfl, hne2, hdig2⟩
    · simp
    · rcases ds2 with _ | ⟨d2, ds2'⟩
      · exact absurd rfl hne2
      · simp only [List.cons_append, List.tail_cons, List.head?_cons]
        intro he
        injection he with he2
        exact digit_ne_colon d2 (hdig2 d2 (by simp)) he2
  rw [sub2_pass_digits ds hne hdig _ hX1 hX2 pw]
  rcases hfs with rfl | ⟨ds2, rfl, hne2, hdig2⟩
  · rw [List.nil_append, sub2_pass_pctverb v u true hv, List.nil_append]
  · rw [List.cons_append, sub2Go_ne0 true '.' _ (by decide)]
    rw [sub2_pass_digits ds2 hne2 hdig2 _ (by simp) (by simp) (isWordChar '.')]
    rw [sub2_pass_pctverb v u true hv]
    rfl

lemma sub2_pass_rep : ∀ ds fs v u : PyStr, ds ≠ [] →
    (∀ c ∈ ds, isPyDigit c = true) →
    (fs = [] ∨ ∃ ds2, fs = '.' :: ds2 ∧ ds2 ≠ [] ∧ (∀ c ∈ ds2, isPyDigit c = true)) →
    v ∈ verbAlts → ∀ pw,
    sub2Go pw (('約' :: ds ++ fs ++ '%' :: v) ++ u) =
      ('約' :: ds ++ fs ++ '%' :: v) ++ sub2Go true u := by
  intro ds fs v u hne hdig hfs hv pw
  obtain ⟨hvne, hvchars, _⟩ := verbs_all_facts v hv
  have hv0 : ∀ c ∈ v, c ≠ ':' := fun c hc => (hvchars c hc).2.2.2.2.2
  have h0 : (('約' :: ds ++ fs ++ '%' :: v) ++ u) =
      '約' :: (ds ++ (fs ++ ('%' :: (v ++ u)))) := by simp
  rw [h0, sub2Go_ne0 pw '約' _ (by decide),
    show isWordChar '約' = true from by decide]
  have hX1 : (fs ++ ('%' :: (v ++ u))).head? ≠ some ':' := by
    rcases hfs with rfl | ⟨ds2, rfl, -, -⟩ <;> simp
  have hX2 : (fs ++ ('%' :: (v ++ u))).tail.head? ≠ some ':' := by
    rcases hfs with rfl | ⟨ds2, rfl, hne2, hdig2⟩
    · rcases v with _ | ⟨v₀, v'⟩
      · exact absurd rfl hvne
      · simp only [List.nil_append, List.tail_cons, List.cons_append, List.head?_cons]
        intro he
        injection he with he2
        exact hv0 v₀ (by simp) he2
    · rcases ds2 with _ | ⟨d2, ds2'⟩
      · exact absurd rfl hne2
      · simp only [List.cons_append, List.tail_cons, List.head?_cons]
        intro he
        injection he with he2
        exact digit_ne_colon d2 (hdig2 d2 (by simp)) he2
  rw [sub2_pass_digits ds hne hdig _ hX1 hX2 true]
  rcases hfs with rfl | ⟨ds2, rfl, hne2, hdig2⟩
  · rw [List.nil_append, sub2_pass_pctv v u true hv]
    simp
  · rw [List.cons_append, sub2Go_ne0 true '.' _ (by decide)]
    have hY1 : (('%' :: (v ++ u)) : PyStr).head? ≠ some ':' := by simp
    have hY2 : (('%' :: (v ++ u)) : PyStr).tail.head? ≠ some ':' := by
      rcases v with _ | ⟨v₀, v'⟩
      · exact absurd rfl hvne
      · simp only [List.cons_append, List.tail_cons, List.head?_cons]
        intro he
        injection he with he2
        exact hv0 v₀ (by simp) he2
    rw [sub2_pass_digits ds2 hne2 hdig2 _ hY1 hY2 (isWordChar '.')]
    rw [sub2_pass_pctv v u true hv]
    simp

lemma sub2_fix_sub3 : ∀ (f : ℕ) (z : PyStr) (pw : Bool),
    sub2Go pw z = z → sub2Go pw (sub3Fuel f z) = sub3Fuel f z := by
  intro f
  induction f with
  | zero => intro z pw h; exact h
  | succ k ih =>
    intro z pw h
    rcases z with _ | ⟨c, r⟩
    · rw [sub3Fuel_nil]
      rfl
    match hm : matchPctHodo (c :: r) with
    | some pr =>
      obtain ⟨ds, fs, v, hrep, ht, hne, hdig, hfs, hv⟩ :=
        matchPctHodo_structure _ pr.1 pr.2 (by rw [hm])
      have ht' : (c :: r) = ds ++ (fs ++ ('%' :: 'ほ' :: 'ど' :: (v ++ pr.2))) := by
        rw [ht]; simp [List.append_assoc]
      have h2 : sub2Go true pr.2 = pr.2 := by
        have hfix := h
        rw [ht', sub2_pass_con ds fs v pr.2 hne hdig hfs hv pw] at hfix
        have h3 := List.append_cancel_left hfix
        have h4 := List.append_cancel_left h3
        injection h4 with h5a h5
        injection h5 with h6a h6
        injection h6 with h7a h7
        exact List.append_cancel_left h7
      rw [sub3Fuel, hm]
      show sub2Go pw (pr.1 ++ sub3Fuel k pr.2) = pr.1 ++ sub3Fuel k pr.2
      rw [hrep, sub2_pass_rep ds fs v (sub3Fuel k pr.2) hne hdig hfs hv pw]
      rw [ih pr.2 true h2]
    | none =>
      have hnof : ¬(c = '0' ∧ pw = false ∧
          ∃ d r2, r = d :: ':' :: r2 ∧ isPyDigit d = true) := by
        rintro ⟨rfl, rfl, d, r2, rfl, hd⟩
        rw [sub2Go_fire d r2 hd] at h
        injection h with h1 h2
        injection h2 with h3 h4
        rw [← h3] at h1
        exact absurd h1 (by decide)
      have hsub : sub2Go (isWordChar c) r = r := by
        have h' := h
        rw [sub2Go_nofire pw c r hnof] at h'
        have h2 := congrArg List.tail h'
        simpa using h2
      rw [sub3Fuel, hm]
      show sub2Go pw (c :: sub3Fuel k r) = c :: sub3Fuel k r
      have hnof2 : ¬(c = '0' ∧ pw = false ∧
          ∃ d S2, sub3Fuel k r = d :: ':' :: S2 ∧ isPyDigit d = true) := by
        rintro ⟨hc0, hpw, d, S2, hS, hd⟩
        rcases sub3Fuel_divergence k r with heq | ⟨p, a, b, h1, h2⟩
        · rw [heq] at hS
          exact hnof ⟨hc0, hpw, d, S2, hS, hd⟩
        · rw [h2] at hS
          rcases p with _ | ⟨p₀, p'⟩
          · rw [List.nil_append] at hS
            injection hS with hda hdb
            rw [← hda] at hd
            exact absurd hd (by decide)
          · rw [List.cons_append] at hS
            injection hS with hp₀ hS'
            rcases p' with _ | ⟨p₁, p''⟩
            · rw [List.nil_append] at hS'
              injection hS' with hcol hcolb
              exact absurd hcol (by decide)
            · rw [List.cons_append] at hS'
              injection hS' with hp₁ hS''
              refine hnof ⟨hc0, hpw, d, p'' ++ a, ?_, hd⟩
              rw [h1, hp₀, hp₁]
              simp [List.cons_append]
      rw [sub2Go_nofire pw c _ hnof2]
      rw [ih r (isWordChar c) hsub]

/-- **C10.** `enforce_symbols` (`modules/validator.py`) is idempotent: applying
it to its own output returns that output unchanged.  The ％→% replacement
leaves no fullwidth percent to replace again; the hour-zero substitution never
creates a new `\b0\d:` context; and each inserted `約…%…` phrase contains no
`ほど`, so the percent-phrase substitution finds no new match. -/
theorem enforce_symbols_idempotent : ∀ t : PyStr,
    enforce_symbols (enforce_symbols t) = enforce_symbols t := by
  intro t
  have hw_pct : ∀ c ∈ sub3 (sub2 (zenPercentToHalf t)), c ≠ '％' := by
    intro c hc
    have hc' : c ∈ sub3Fuel (sub2 (zenPercentToHalf t)).length (sub2 (zenPercentToHalf t)) := hc
    rcases sub3Fuel_chars _ _ c hc' with h1 | rfl
    · have h1' : c ∈ sub2Go false (zenPercentToHalf t) := h1
      exact zph_no_pct t c (sub2Go_subset (zenPercentToHalf t) false c h1')
    · decide
  have hz : sub2Go false (sub2 (zenPercentToHalf t)) = sub2 (zenPercentToHalf t) :=
    sub2_idem (zenPercentToHalf t)
  have hsub2w : sub2 (sub3 (sub2 (zenPercentToHalf t))) = sub3 (sub2 (zenPercentToHalf t)) :=
    sub2_fix_sub3 (sub2 (zenPercentToHalf t)).length (sub2 (zenPercentToHalf t)) false hz
  show sub3 (sub2 (zenPercentToHalf (sub3 (sub2 (zenPercentToHalf t))))) = _
  rw [zph_id _ hw_pct, hsub2w, sub3_idem]
  rfl
